import Mathlib

/-!
Verification development for the dataset-wrangler toolkit
(src/split_dataset.py, src/cleanup_dataset.py, src/batch_rename_images.py).

The Python scripts are shallowly embedded:

* CPython floats are modelled by the type `Dy` of dyadic values m * 2^e.
  Every IEEE-754 double is such a value, and every arithmetic operation of
  the scripts (float literal conversion, int-to-float conversion, +, -, *,
  abs, comparisons, int( ) truncation) is modelled by exact integer
  arithmetic followed by correct rounding to 53 significant bits with
  round-to-nearest, ties-to-even (`roundDy`).  Exponent overflow and
  subnormals are not modelled; all quantities handled by the scripts are
  far inside the normal range.
* Filesystem snapshots are association lists from path strings to optional
  byte contents (`none` models an unreadable file).
* Exceptions are modelled by `Except`/`Option` results, and filesystem
  effects by explicit effect lists and an output filesystem state.
-/

/-! ## Bit-level naturals: powers of two and a structural base-2 logarithm -/

/-- Power of two on naturals, via the kernel-friendly shift. -/
def pow2 (k : ℕ) : ℕ := Nat.shiftLeft 1 k

/-- Fuelled base-2 logarithm (the fuel is consumed once per halving). -/
def log2F : ℕ → ℕ → ℕ
  | 0, _ => 0
  | f+1, n => if n < 2 then 0 else log2F f (n / 2) + 1

/-- Base-2 logarithm: largest L with 2^L ≤ n (for n ≥ 1). -/
def natLog2 (n : ℕ) : ℕ := log2F n n

/-! ## The float model -/

/-- A dyadic value m * 2^e.  CPython floats are embedded as such pairs;
the representation is not required to be normalised, and all comparisons
are by value. -/
structure Dy where
  m : ℤ
  e : ℤ
deriving DecidableEq, Repr

/-- The rational value denoted by a dyadic pair (used only in statements
and proofs, never in executable paths). -/
def zpow2 : ℤ → ℚ
  | .ofNat k => (pow2 k : ℚ)
  | .negSucc k => ((pow2 (k+1) : ℚ))⁻¹

/-- Value of a `Dy` as a rational number. -/
def toRat (d : Dy) : ℚ := (d.m : ℚ) * zpow2 d.e

/-- Rounding step for a mantissa with 53 + s significant bits, s ≥ 1:
drop the low s bits of n, round to nearest with ties to even, and
renormalise the power-of-two carry if rounding overflows to 2^53. -/
def roundBig (n : ℕ) (e : ℤ) (s : ℕ) : ℤ × ℤ :=
  let q := Nat.shiftRight n s
  let r := n - Nat.shiftLeft q s
  let half := pow2 (s - 1)
  let q2 := if half < r then q + 1 else if r < half then q else if q % 2 = 0 then q else q + 1
  if q2 = pow2 53 then (Int.ofNat (pow2 52), e + (s : ℤ) + 1) else (Int.ofNat q2, e + (s : ℤ))

/-- Round a positive natural mantissa n (times 2^e) to 53 significant
bits, round-to-nearest ties-to-even; returns the nonnegative rounded
mantissa and adjusted exponent.  Assumes 1 ≤ n. -/
def roundPosCore (n : ℕ) (e : ℤ) : ℤ × ℤ :=
  if natLog2 n ≤ 52 then
    (Int.ofNat (Nat.shiftLeft n (52 - natLog2 n)), e - (52 - natLog2 n))
  else roundBig n e (natLog2 n - 52)

/-- Round an exact dyadic m * 2^e to the nearest 53-bit float
(round-to-nearest, ties-to-even), the rounding CPython applies after
every arithmetic operation. -/
def roundDy (m e : ℤ) : Dy :=
  match m with
  | .ofNat 0 => ⟨0, 0⟩
  | .ofNat (k+1) => ⟨(roundPosCore (k+1) e).1, (roundPosCore (k+1) e).2⟩
  | .negSucc k => ⟨-(roundPosCore (k+1) e).1, (roundPosCore (k+1) e).2⟩

/-- Conversion of a nonnegative integer to float (CPython float(n)),
exact for n < 2^53. -/
def dyOfNat (n : ℕ) : Dy := roundDy n 0

/-- Correctly rounded conversion of a positive rational a / b to a
float; this is how CPython parses decimal float literals such as 0.7 or
1e-6. -/
def dyOfRatPos (a b : ℕ) : Dy :=
  let k0 : ℤ := (52 : ℤ) + (natLog2 b : ℤ) - (natLog2 a : ℤ)
  let q0 := if 0 ≤ k0 then Nat.shiftLeft a k0.toNat / b else a / Nat.shiftLeft b (-k0).toNat
  let k : ℤ := if q0 < pow2 52 then k0 + 1 else if pow2 53 ≤ q0 then k0 - 1 else k0
  let A := if 0 ≤ k then Nat.shiftLeft a k.toNat else a
  let B := if 0 ≤ k then b else Nat.shiftLeft b (-k).toNat
  let q := A / B
  let r := A % B
  let q2 := if B < 2 * r then q + 1 else if 2 * r < B then q else if q % 2 = 0 then q else q + 1
  if q2 = pow2 53 then ⟨Int.ofNat (pow2 52), -k + 1⟩ else ⟨Int.ofNat q2, -k⟩

/-- Exact float negation. -/
def dyNeg (d : Dy) : Dy := ⟨-d.m, d.e⟩

/-- Exact float absolute value (Python abs on floats is exact). -/
def dyAbs (d : Dy) : Dy := ⟨(d.m.natAbs : ℤ), d.e⟩

/-- Bring two dyadics to a common exponent (exactly); used by addition
and by value comparisons. -/
def alignPair (a b : Dy) : ℤ × ℤ :=
  (a.m * (pow2 (a.e - min a.e b.e).toNat : ℤ), b.m * (pow2 (b.e - min a.e b.e).toNat : ℤ))

/-- Float addition: exact sum, then rounding — exactly IEEE-754 (and
hence CPython) addition for in-range values. -/
def dyAdd (a b : Dy) : Dy := roundDy ((alignPair a b).1 + (alignPair a b).2) (min a.e b.e)

/-- Float subtraction. -/
def dySub (a b : Dy) : Dy := dyAdd a (dyNeg b)

/-- Float multiplication: exact product, then rounding. -/
def dyMul (a b : Dy) : Dy := roundDy (a.m * b.m) (a.e + b.e)

/-- Value comparison a < b of two floats (exact on values). -/
def dyLt (a b : Dy) : Bool := decide ((alignPair a b).1 < (alignPair a b).2)

/-- Python int * float: the int is converted to float (rounding if it
exceeds 2^53) and the floats are multiplied. -/
def pyMulNat (n : ℕ) (r : Dy) : Dy := dyMul (dyOfNat n) r

/-- Truncation of the absolute value floor: for n * 2^e with n : ℕ this
is the integer part. -/
def dyFloorAbs (n : ℕ) (e : ℤ) : ℕ :=
  if 0 ≤ e then Nat.shiftLeft n e.toNat else Nat.shiftRight n (-e).toNat

/-- Python int(x) on a float: truncation toward zero. -/
def pyInt (d : Dy) : ℤ :=
  if 0 ≤ d.m then Int.ofNat (dyFloorAbs d.m.toNat d.e)
  else -Int.ofNat (dyFloorAbs (-d.m).toNat d.e)

/-! ## Strings and paths -/

/-- Lexicographic comparison of character lists by code point, the
ordering Python uses to compare strings. -/
def lexLe : List Char → List Char → Bool
  | [], _ => true
  | _ :: _, [] => false
  | a :: as, b :: bs =>
    if a.toNat < b.toNat then true
    else if b.toNat < a.toNat then false
    else lexLe as bs

/-- String comparison a ≤ b as Python orders strings. -/
def strLe (a b : String) : Bool := lexLe a.data b.data

/-- Python str.lower restricted to ASCII, which is all the scripts
compare (file extensions). -/
def strLower (s : String) : String := String.mk (s.data.map Char.toLower)

/-- Index (from the right) of the last occurrence of c, as Python
rfind: -1 when absent. -/
def lastIdxOf (c : Char) (l : List Char) : ℤ :=
  match l.reverse.findIdx? (fun a => a = c) with
  | none => -1
  | some k => (l.length : ℤ) - 1 - k

/-- os.path.splitext on the character list of a path: split at the last
dot of the basename, unless every character of the basename before that
dot is itself a dot. -/
def splitextList (l : List Char) : List Char × List Char :=
  let sepIdx := lastIdxOf '/' l
  let dotIdx := lastIdxOf '.' l
  if sepIdx < dotIdx then
    if (List.range l.length).any
        (fun p => decide (sepIdx < p) && decide ((p : ℤ) < dotIdx) && (l.get? p ≠ some '.')) then
      (l.take dotIdx.toNat, l.drop dotIdx.toNat)
    else (l, [])
  else (l, [])

/-- os.path.splitext on strings. -/
def splitext (s : String) : String × String :=
  (String.mk (splitextList s.data).1, String.mk (splitextList s.data).2)

/-! ## split_dataset.py -/

/-- validate_ratios from src/split_dataset.py: the run continues only
when abs((train + val + test) - 1.0) < 1e-6, computed in float
arithmetic; otherwise the script exits before touching any file. -/
def validate_ratios (tr vl te : Dy) : Bool :=
  dyLt (dyAbs (dySub (dyAdd (dyAdd tr vl) te) (dyOfNat 1))) (dyOfRatPos 1 1000000)

/-- gather_files from src/split_dataset.py: the directory listing is
sorted lexicographically (os.listdir order is unspecified; sorted()
normalises it). -/
def gather_files (listing : List String) : List String :=
  List.insertionSort (fun a b => strLe a b = true) listing

/-- Python list(range(a, b)) over integers. -/
def pyRange (a b : ℤ) : List ℤ :=
  (List.range (b - a).toNat).map (fun k => a + Int.ofNat k)

/-- Python list indexing xs[i]: nonnegative indices from the front,
negative indices from the back, IndexError (none) otherwise. -/
def pyIndex (xs : List α) (i : ℤ) : Option α :=
  if 0 ≤ i then xs.get? i.toNat
  else if 0 ≤ i + (xs.length : ℤ) then xs.get? (i + (xs.length : ℤ)).toNat
  else none

/-- Evaluate a list comprehension that can raise: the first failure
aborts the whole comprehension. -/
def mapOpt (f : α → Option γ) : List α → Option (List γ)
  | [] => some []
  | a :: l =>
    match f a, mapOpt f l with
    | some b, some bl => some (b :: bl)
    | _, _ => none

/-- split_indices from src/split_dataset.py: n_train = int(n * train_r),
n_val = int(n * val_r), and the three contiguous index ranges
range(0, n_train), range(n_train, n_train + n_val),
range(n_train + n_val, n). -/
def split_indices (n : ℕ) (tr vl : Dy) : List ℤ × List ℤ × List ℤ :=
  let nt := pyInt (pyMulNat n tr)
  let nv := pyInt (pyMulNat n vl)
  (pyRange 0 nt, pyRange nt (nt + nv), pyRange (nt + nv) (n : ℤ))

/-- Modelled from the spec: the partitioner seeds a pseudo-random
generator with the given seed (random.seed in the source; the
generator's internals live in Python's standard library, outside src/).
The spec requires only a deterministic generator that is a function of
the seed; we model a 32-bit linear congruential generator state. -/
def pySeed (seed : ℕ) : ℕ := seed % 4294967296

/-- Modelled from the spec: one step of the deterministic pseudo-random
generator. -/
def lcgNext (s : ℕ) : ℕ := (1103515245 * s + 12345) % 4294967296

/-- Modelled from the spec: draw a number below n from the generator,
returning the draw and the advanced generator state. -/
def randbelow (s n : ℕ) : ℕ × ℕ := (lcgNext s % n, lcgNext s)

/-- Swap two positions of a list (Python x[i], x[j] = x[j], x[i]);
out-of-range indices leave the list unchanged (never exercised by the
shuffle, whose indices are always in range). -/
def listSwap (x : List α) (i j : ℕ) : List α :=
  match x.get? i, x.get? j with
  | some a, some b => (x.set i b).set j a
  | _, _ => x

/-- Fisher–Yates loop of random.shuffle: for i from len-1 down to 1,
draw j below i+1 and swap positions i and j.  The counter k stands for
the current value of i. -/
def shuffleGo : ℕ → List α → ℕ → List α × ℕ
  | 0, x, s => (x, s)
  | k+1, x, s => shuffleGo k (listSwap x (k+1) (randbelow s (k+2)).1) (randbelow s (k+2)).2

/-- random.shuffle(x) under the seeded generator state. -/
def pyShuffle (x : List α) (s : ℕ) : List α × ℕ := shuffleGo (x.length - 1) x s

/-- Outcome of a run of split_dataset.main: a fatal configuration error,
an IndexError while building the subset lists, or the three subset
lists. -/
inductive SplitOutcome where
  | ratioErr : SplitOutcome
  | emptyErr : SplitOutcome
  | indexErr : SplitOutcome
  | ok : List String → List String → List String → SplitOutcome
deriving DecidableEq, Repr

/-- Observable behaviour of one run of split_dataset.main: the outcome,
the shuffled order, the destination directories created, and the
per-file placement operations attempted (filename, subset name). -/
structure SplitRun where
  outcome : SplitOutcome
  shuffled : List String
  dirs : List String
  ops : List (String × String)
deriving DecidableEq, Repr

/-- Placement operations of a successful run: every file of every
subset, in dict insertion order train, val, test. -/
def opsOf : SplitOutcome → List (String × String)
  | .ok t v s =>
    t.map (fun f => (f, "train")) ++ v.map (fun f => (f, "val")) ++ s.map (fun f => (f, "test"))
  | _ => []

/-- Directories created by make_dirs on a successful build. -/
def dirsOf : SplitOutcome → List String
  | .ok _ _ _ => ["train", "val", "test"]
  | _ => []

/-- Assemble the three subset lists [files[i] for i in idx]; the first
IndexError aborts the program. -/
def buildSubsets (x : List String) (ti vi si : List ℤ) : SplitOutcome :=
  match mapOpt (pyIndex x) ti with
  | none => .indexErr
  | some t =>
    match mapOpt (pyIndex x) vi with
    | none => .indexErr
    | some v =>
      match mapOpt (pyIndex x) si with
      | none => .indexErr
      | some s => .ok t v s

/-- main of src/split_dataset.py.  The argument prior is the ambient
generator state the process had before the run; main overwrites it with
random.seed(seed) before shuffling, so the run never depends on it.
Ratio validation happens first, then the listing is gathered and the
empty check made, then the shuffle, slicing, subset construction,
directory creation and placement. -/
def mainSplit (prior : ℕ) (seed : ℕ) (listing : List String) (tr vl te : Dy) : SplitRun :=
  if validate_ratios tr vl te = false then ⟨.ratioErr, [], [], []⟩
  else
    let files := gather_files listing
    if files.isEmpty then ⟨.emptyErr, [], [], []⟩
    else
      let st0 := pySeed seed
      let shuffled := (pyShuffle files st0).1
      let out := buildSubsets shuffled (split_indices files.length tr vl).1
        (split_indices files.length tr vl).2.1 (split_indices files.length tr vl).2.2
      ⟨out, shuffled, dirsOf out, opsOf out⟩

/-! ## cleanup_dataset.py

The filesystem snapshot is an association list fs : List (String × Option (List β)):
keys are paths, some c is the byte content (bytes abstracted to a type β),
and none marks a file that exists in the listing but cannot be opened or
read.  The SHA-256 digest is abstracted to a function sha : List β → δ on
full contents; compute_hash reads the file in 64 KiB blocks and folds them
into the digest, which equals the digest of the concatenated blocks. -/

/-- Supported image extensions of src/cleanup_dataset.py. -/
def IMAGE_EXTENSIONS : List String :=
  [".jpg", ".jpeg", ".png", ".bmp", ".gif", ".tiff", ".webp"]

/-- Fuelled block reader: f.read(65536) until empty, collecting the
blocks.  The fuel (initially the content length) bounds the number of
reads, each of which consumes at least one byte. -/
def readBlocksGo : ℕ → List β → List (List β)
  | 0, _ => []
  | f+1, l => if l.isEmpty then [] else l.take 65536 :: readBlocksGo f (l.drop 65536)

/-- The sequence of 64 KiB blocks compute_hash reads from a file with
the given content. -/
def readBlocks (l : List β) : List (List β) := readBlocksGo l.length l

/-- compute_hash from src/cleanup_dataset.py: fold the 64 KiB blocks
into the incremental SHA-256 state; the resulting digest is the digest
of the concatenation of the blocks read. -/
def compute_hash (sha : List β → δ) (content : List β) : δ :=
  sha (readBlocks content).flatten

/-- First value bound to a key in an association list. -/
def lookupKey (k : String) : List (String × γ) → Option γ
  | [] => none
  | (a, b) :: l => if a = k then some b else lookupKey k l

/-- Open and hash the file at a path: none when the file is missing or
unreadable (the OSError case of open/read). -/
def hashFile (sha : List β → δ) (fs : List (String × Option (List β))) (p : String) : Option δ :=
  match lookupKey p fs with
  | some (some c) => some (compute_hash sha c)
  | _ => none

/-- First value bound to a digest in the hashes dict. -/
def lookupHash [DecidableEq δ] (k : δ) : List (δ × String) → Option String
  | [] => none
  | (a, b) :: l => if a = k then some b else lookupHash k l

/-- Loop of find_duplicates: hashes is the dict from fingerprint to
first path seen with it, dups the pairs (duplicate, original) collected
so far.  A failed hash raises, aborting the whole loop (there is no
try/except around compute_hash in the source). -/
def fdGo [DecidableEq δ] (hashOf : String → Option δ) :
    List String → List (δ × String) → List (String × String) →
    Except String (List (String × String))
  | [], _, dups => .ok dups
  | p :: rest, hashes, dups =>
    match hashOf p with
    | none => .error p
    | some h =>
      match lookupHash h hashes with
      | some orig => fdGo hashOf rest hashes (dups ++ [(p, orig)])
      | none => fdGo hashOf rest (hashes ++ [(h, p)]) dups

/-- find_duplicates from src/cleanup_dataset.py. -/
def find_duplicates [DecidableEq δ] (sha : List β → δ)
    (fs : List (String × Option (List β))) (paths : List String) :
    Except String (List (String × String)) :=
  fdGo (hashFile sha fs) paths [] []

/-- is_corrupt_image from src/cleanup_dataset.py: PIL decode
verification is abstracted by the judge predicate on contents; an
unreadable file raises OSError inside the try and is therefore judged
corrupt. -/
def is_corrupt_image (judge : List β → Bool) (fs : List (String × Option (List β)))
    (p : String) : Bool :=
  match lookupKey p fs with
  | some (some c) => judge c
  | _ => true

/-- gather_all_files from src/cleanup_dataset.py: the listing restricted
to files, sorted lexicographically. -/
def gather_all_files (fs : List (String × Option (List β))) : List String :=
  List.insertionSort (fun a b => strLe a b = true) (fs.map Prod.fst)

/-- os.remove on the snapshot: fails (FileNotFoundError) when the path
is no longer present, for instance because an earlier step of the same
run already deleted it. -/
def removeFile (fs : List (String × Option (List β))) (p : String) :
    Bool × List (String × Option (List β)) :=
  if (fs.map Prod.fst).contains p then (true, fs.filter (fun entry => entry.1 ≠ p)) else (false, fs)

/-- Sequentially delete the given paths, recording successes and
per-file failures; a failed deletion never aborts the loop (the source
wraps each os.remove in try/except). -/
def removeAll (fs : List (String × Option (List β))) :
    List String → List String × List String × List (String × Option (List β))
  | [] => ([], [], fs)
  | p :: rest =>
    match removeFile fs p with
    | (true, fs1) =>
      match removeAll fs1 rest with
      | (rem, fail, fs2) => (p :: rem, fail, fs2)
    | (false, fs1) =>
      match removeAll fs1 rest with
      | (rem, fail, fs2) => (rem, p :: fail, fs2)

/-- Observable behaviour of one run of cleanup_dataset.main: the path
whose hashing raised (if any), the two classification outputs, the
deletions performed and failed in each pass, and the final filesystem
state. -/
structure CleanupRun (β : Type) where
  crash : Option String
  duplicates : List (String × String)
  corrupts : List String
  removedDups : List String
  failedDups : List String
  removedCorrupts : List String
  failedCorrupts : List String
  fsAfter : List (String × Option (List β))
deriving DecidableEq

/-- main of src/cleanup_dataset.py on a directory snapshot: gather the
sorted listing, classify duplicates (an unreadable file aborts the run
here), classify corrupt images among recognised extensions, then —
unless dryRun — delete the duplicate of each pair and afterwards every
corrupt path, isolating per-file deletion failures. -/
def cleanupMain [DecidableEq δ] (sha : List β → δ) (judge : List β → Bool)
    (fs : List (String × Option (List β))) (dryRun : Bool) : CleanupRun β :=
  let files := gather_all_files fs
  match find_duplicates sha fs files with
  | .error p => ⟨some p, [], [], [], [], [], [], fs⟩
  | .ok dups =>
    let corrupts := files.filter
      (fun p => (IMAGE_EXTENSIONS.contains (strLower (splitext p).2)) &&
        is_corrupt_image judge fs p)
    if dryRun then ⟨none, dups, corrupts, [], [], [], [], fs⟩
    else
      match removeAll fs (dups.map Prod.fst) with
      | (remD, failD, fs1) =>
        match removeAll fs1 corrupts with
        | (remC, failC, fs2) => ⟨none, dups, corrupts, remD, failD, remC, failC, fs2⟩

/-! ## batch_rename_images.py: collision resolution -/

/-- The candidate path resolve_collision tries at index idx: the stem of
the target with an underscore and the index appended, keeping the
extension. -/
def collCand (target : String) (idx : ℕ) : String :=
  (splitext target).1 ++ "_" ++ toString idx ++ (splitext target).2

/-- Fuelled while-loop of resolve_collision: try indices idx, idx+1, ...
until a candidate is not occupied.  The fuel bounds the number of probes
and is never exhausted when some candidate within range is free. -/
def collisionLoop (occupied : List String) (target : String) : ℕ → ℕ → String
  | 0, idx => collCand target idx
  | f+1, idx =>
    if occupied.contains (collCand target idx) then collisionLoop occupied target f (idx + 1)
    else collCand target idx

/-- resolve_collision from src/batch_rename_images.py: starting at index
1, append an increasing numeric suffix to the stem until the resulting
path does not exist.  occupied is the set of existing paths
(os.path.exists); its size plus one bounds the probes needed whenever a
free candidate exists in that range. -/
def resolve_collision (occupied : List String) (target : String) : String :=
  collisionLoop occupied target (occupied.length + 1) 1

/-! ## Specification-level helper definitions used by the lemmas -/

/-- The duplicate pairs the scan produces, computed against an explicit
prefix seen of already-processed paths: a path p whose fingerprint
already occurs in seen is paired with the first such occurrence. -/
def dupPairs (f : String → δ) [DecidableEq δ] (seen : List String) :
    List String → List (String × String)
  | [] => []
  | p :: rest =>
    (match seen.find? (fun q => decide (f q = f p)) with
      | some q => [(p, q)]
      | none => []) ++ dupPairs f (seen ++ [p]) rest

/-! # Lemmas

Everything below is proof; the embedding above is complete. -/

/-! ## Arithmetic of the float model -/

theorem pow2_eq (k : ℕ) : pow2 k = 2 ^ k := by
  simp [pow2, Nat.shiftLeft_eq]

theorem log2F_spec : ∀ f n, 1 ≤ n → n ≤ f → 2 ^ log2F f n ≤ n ∧ n < 2 ^ (log2F f n + 1) := by
  intro f
  induction f with
  | zero => intro n h1 h2; omega
  | succ f ih =>
    intro n h1 h2
    by_cases hn : n < 2
    · have : n = 1 := by omega
      simp [log2F, hn, this]
    · have hrec := ih (n / 2) (by omega) (by omega)
      obtain ⟨hl, hr⟩ := hrec
      simp only [log2F, if_neg hn]
      have hp1 : 2 ^ (log2F f (n / 2) + 1) = 2 * 2 ^ log2F f (n / 2) := by ring
      have hp2 : 2 ^ (log2F f (n / 2) + 1 + 1) = 2 * 2 ^ (log2F f (n / 2) + 1) := by ring
      omega

theorem natLog2_spec (n : ℕ) (h : 1 ≤ n) :
    2 ^ natLog2 n ≤ n ∧ n < 2 ^ (natLog2 n + 1) :=
  log2F_spec n n h le_rfl

theorem zpow2_eq (e : ℤ) : zpow2 e = (2 : ℚ) ^ e := by
  cases e with
  | ofNat k =>
    show (pow2 k : ℚ) = (2 : ℚ) ^ (Int.ofNat k)
    rw [pow2_eq, Int.ofNat_eq_coe, zpow_natCast]
    push_cast
    ring
  | negSucc k =>
    show ((pow2 (k+1) : ℚ))⁻¹ = (2 : ℚ) ^ (Int.negSucc k)
    rw [pow2_eq, zpow_negSucc]
    push_cast
    ring

theorem zpow2_pos (e : ℤ) : 0 < zpow2 e := by
  rw [zpow2_eq]; positivity

theorem zpow2_add (a b : ℤ) : zpow2 (a + b) = zpow2 a * zpow2 b := by
  rw [zpow2_eq, zpow2_eq, zpow2_eq, zpow_add₀ (by norm_num : (2:ℚ) ≠ 0)]

theorem zpow2_zero : zpow2 0 = 1 := by
  show (pow2 0 : ℚ) = 1
  simp [pow2]

theorem zpow2_natCast (k : ℕ) : zpow2 (k : ℤ) = ((2 ^ k : ℕ) : ℚ) := by
  rw [zpow2_eq]
  push_cast
  rw [zpow_natCast]

theorem toRat_nonneg_iff (d : Dy) : 0 ≤ toRat d ↔ 0 ≤ d.m := by
  unfold toRat
  rw [mul_nonneg_iff_of_pos_right (zpow2_pos d.e)]
  exact_mod_cast Iff.rfl


theorem natShiftLeft_eq (a b : ℕ) : Nat.shiftLeft a b = a * 2 ^ b := Nat.shiftLeft_eq a b

theorem natShiftRight_eq (a b : ℕ) : Nat.shiftRight a b = a / 2 ^ b :=
  Nat.shiftRight_eq_div_pow a b

theorem pyval_nonneg (n : ℕ) (e : ℤ) : (0:ℚ) ≤ (n : ℚ) * zpow2 e :=
  mul_nonneg (by exact_mod_cast Nat.zero_le n) (le_of_lt (zpow2_pos e))

theorem pow2_cast_pos (k : ℕ) : (0:ℚ) < (pow2 k : ℚ) := by
  rw [pow2_eq]; positivity

theorem roundErrBound (n : ℕ) (e : ℤ) (s : ℕ) (q2 : ℕ) (hs1 : 1 ≤ s)
    (hlow : 2 ^ (s + 52) ≤ n)
    (hd1 : (q2 : ℤ) * 2 ^ s - n ≤ 2 ^ (s - 1))
    (hd2 : (n : ℤ) - q2 * 2 ^ s ≤ 2 ^ (s - 1)) :
    |(q2 : ℚ) * zpow2 (e + s) - (n : ℚ) * zpow2 e| ≤ (n : ℚ) * zpow2 e / pow2 53 := by
  have hsplit : (q2 : ℚ) * zpow2 (e + s) - (n : ℚ) * zpow2 e =
      ((q2 : ℚ) * ((2 ^ s : ℕ) : ℚ) - n) * zpow2 e := by
    rw [zpow2_add, zpow2_natCast]
    ring
  rw [hsplit, abs_mul, abs_of_pos (zpow2_pos e)]
  have habs : |(q2 : ℚ) * ((2 ^ s : ℕ) : ℚ) - n| ≤ ((2 ^ (s - 1) : ℕ) : ℚ) := by
    rw [abs_le]
    constructor
    · have : -((2 ^ (s-1) : ℕ) : ℤ) ≤ (q2 : ℤ) * 2 ^ s - n := by push_cast; omega
      calc -((2 ^ (s-1) : ℕ) : ℚ) = (((-(2 ^ (s-1) : ℕ) : ℤ)) : ℚ) := by push_cast; ring
        _ ≤ (((q2 : ℤ) * 2 ^ s - n : ℤ) : ℚ) := by exact_mod_cast this
        _ = (q2 : ℚ) * ((2 ^ s : ℕ) : ℚ) - n := by push_cast; ring
    · have : (q2 : ℤ) * 2 ^ s - n ≤ ((2 ^ (s-1) : ℕ) : ℤ) := by push_cast; omega
      calc (q2 : ℚ) * ((2 ^ s : ℕ) : ℚ) - n = (((q2 : ℤ) * 2 ^ s - n : ℤ) : ℚ) := by
            push_cast; ring
        _ ≤ ((2 ^ (s-1) : ℕ) : ℚ) := by exact_mod_cast this
  have hstep : ((2 ^ (s - 1) : ℕ) : ℚ) * zpow2 e ≤ (n : ℚ) * zpow2 e / pow2 53 := by
    rw [div_eq_mul_inv, mul_comm ((n : ℚ)) (zpow2 e), mul_assoc,
      mul_comm ((2 ^ (s-1) : ℕ) : ℚ) (zpow2 e)]
    apply mul_le_mul_of_nonneg_left _ (le_of_lt (zpow2_pos e))
    rw [le_mul_inv_iff₀ (pow2_cast_pos 53)]
    rw [← Nat.cast_mul]
    have hmul : 2 ^ (s - 1) * pow2 53 = 2 ^ (s + 52) := by
      rw [pow2_eq, ← pow_add]
      congr 1
      omega
    rw [hmul]
    exact_mod_cast hlow
  calc |(q2 : ℚ) * ((2 ^ s : ℕ) : ℚ) - n| * zpow2 e
      ≤ ((2 ^ (s - 1) : ℕ) : ℚ) * zpow2 e :=
        mul_le_mul_of_nonneg_right habs (le_of_lt (zpow2_pos e))
    _ ≤ (n : ℚ) * zpow2 e / pow2 53 := hstep

theorem roundBig_spec (n : ℕ) (e : ℤ) (s : ℕ) (hs1 : 1 ≤ s)
    (hlow : 2 ^ (s + 52) ≤ n) :
    |((roundBig n e s).1 : ℚ) * zpow2 (roundBig n e s).2 - (n : ℚ) * zpow2 e| ≤
      (n : ℚ) * zpow2 e / pow2 53 := by
  unfold roundBig
  dsimp only
  set q := Nat.shiftRight n s with hqdef
  have hq : q = n / 2 ^ s := by rw [hqdef, natShiftRight_eq]
  have hshift : Nat.shiftLeft q s = q * 2 ^ s := natShiftLeft_eq q s
  have hmodlt : n % 2 ^ s < 2 ^ s := Nat.mod_lt _ (by positivity)
  have hr : n - Nat.shiftLeft q s = n % 2 ^ s := by
    rw [hshift, hq]
    exact Nat.sub_eq_of_eq_add (Nat.mod_add_div' n (2 ^ s)).symm
  rw [hr]
  have hhalf : pow2 (s - 1) = 2 ^ (s - 1) := pow2_eq (s - 1)
  have hhalf2 : 2 ^ (s - 1) * 2 = 2 ^ s := by
    rw [← pow_succ]; congr 1; omega
  set q2 := if pow2 (s-1) < n % 2 ^ s then q + 1
    else if n % 2 ^ s < pow2 (s-1) then q else if q % 2 = 0 then q else q + 1 with hq2def
  have hrq : (n : ℤ) = 2 ^ s * q + ((n % 2 ^ s : ℕ) : ℤ) := by
    have h0 : 2 ^ s * (n / 2 ^ s) + n % 2 ^ s = n := Nat.div_add_mod n (2 ^ s)
    rw [hq]
    exact_mod_cast h0.symm
  have hd : (q2 : ℤ) * 2 ^ s - n ≤ 2 ^ (s - 1) ∧ (n : ℤ) - q2 * 2 ^ s ≤ 2 ^ (s - 1) := by
    have hhalfZ : ((2:ℤ) ^ (s-1)) * 2 = 2 ^ s := by exact_mod_cast hhalf2
    have hrltZ : ((n % 2 ^ s : ℕ) : ℤ) < 2 ^ s := by exact_mod_cast hmodlt
    have hr0 : (0:ℤ) ≤ ((n % 2 ^ s : ℕ) : ℤ) := Int.ofNat_nonneg _
    rw [hq2def]
    split
    · rename_i hcase
      rw [hhalf] at hcase
      have hvgt : ((2:ℤ) ^ (s-1)) < ((n % 2 ^ s : ℕ) : ℤ) := by exact_mod_cast hcase
      constructor <;> push_cast <;> linarith [hrq, hhalfZ, hrltZ, hvgt]
    · split
      · rename_i hcase
        rw [hhalf] at hcase
        have hvlt : ((n % 2 ^ s : ℕ) : ℤ) < ((2:ℤ) ^ (s-1)) := by exact_mod_cast hcase
        constructor <;> push_cast <;> linarith [hrq, hhalfZ, hr0, hvlt]
      · rename_i hc1 hc2
        rw [hhalf] at hc1 hc2
        have h1 : ((2:ℤ) ^ (s-1)) ≤ ((n % 2 ^ s : ℕ) : ℤ) := by
          exact_mod_cast Nat.le_of_not_lt hc2
        have h2 : ((n % 2 ^ s : ℕ) : ℤ) ≤ ((2:ℤ) ^ (s-1)) := by
          exact_mod_cast Nat.le_of_not_lt hc1
        split <;> constructor <;> push_cast <;> linarith [hrq, hhalfZ, h1, h2]
  by_cases hc : q2 = pow2 53
  · rw [if_pos hc]
    have hval : ((Int.ofNat (pow2 52) : ℤ) : ℚ) * zpow2 (e + (s : ℤ) + 1) =
        (q2 : ℚ) * zpow2 (e + s) := by
      rw [hc]
      have h1 : (e + (s : ℤ) + 1) = (e + (s : ℤ)) + 1 := by ring
      rw [h1, zpow2_add (e + (s : ℤ)) 1]
      have h2 : zpow2 1 = 2 := by
        show (pow2 1 : ℚ) = 2
        rw [pow2_eq]; norm_num
      rw [h2, pow2_eq, pow2_eq]
      push_cast
      ring
    rw [hval]
    exact roundErrBound n e s q2 hs1 hlow hd.1 hd.2
  · rw [if_neg hc]
    have hq2c : ((Int.ofNat q2 : ℤ) : ℚ) = (q2 : ℚ) := by exact_mod_cast rfl
    have hval : ((Int.ofNat q2 : ℤ) : ℚ) * zpow2 (e + (s : ℤ)) = (q2 : ℚ) * zpow2 (e + s) := by
      rw [hq2c]
    rw [hval]
    exact roundErrBound n e s q2 hs1 hlow hd.1 hd.2

theorem roundBig_nonneg (n : ℕ) (e : ℤ) (s : ℕ) : 0 ≤ (roundBig n e s).1 := by
  unfold roundBig
  dsimp only
  repeat' split
  all_goals exact Int.ofNat_nonneg _

theorem roundPosCore_exact (n : ℕ) (e : ℤ) (h : natLog2 n ≤ 52) :
    ((roundPosCore n e).1 : ℚ) * zpow2 (roundPosCore n e).2 = (n : ℚ) * zpow2 e := by
  unfold roundPosCore
  rw [if_pos h]
  show ((Int.ofNat (Nat.shiftLeft n (52 - natLog2 n)) : ℤ) : ℚ) *
    zpow2 (e - (52 - natLog2 n)) = (n : ℚ) * zpow2 e
  rw [natShiftLeft_eq]
  have hL : ((52 - natLog2 n : ℕ) : ℤ) = 52 - (natLog2 n : ℤ) := by
    rw [Nat.cast_sub h]
    norm_num
  have hcast : ((Int.ofNat (n * 2 ^ (52 - natLog2 n)) : ℤ) : ℚ) =
      (n : ℚ) * ((2 ^ (52 - natLog2 n) : ℕ) : ℚ) := by
    exact_mod_cast rfl
  have harg : (52 - (natLog2 n : ℤ)) + (e - (52 - (natLog2 n : ℤ))) = e := by ring
  calc ((Int.ofNat (n * 2 ^ (52 - natLog2 n)) : ℤ) : ℚ) * zpow2 (e - (52 - (natLog2 n : ℤ))) =
      (n : ℚ) * (((2 ^ (52 - natLog2 n) : ℕ) : ℚ) * zpow2 (e - (52 - (natLog2 n : ℤ)))) := by
        rw [hcast]; ring
    _ = (n : ℚ) * (zpow2 ((52 - natLog2 n : ℕ) : ℤ) * zpow2 (e - (52 - (natLog2 n : ℤ)))) := by
        rw [zpow2_natCast]
    _ = (n : ℚ) * (zpow2 (52 - (natLog2 n : ℤ)) * zpow2 (e - (52 - (natLog2 n : ℤ)))) := by
        rw [hL]
    _ = (n : ℚ) * zpow2 e := by rw [← zpow2_add, harg]

theorem roundPosCore_nonneg (n : ℕ) (e : ℤ) : 0 ≤ (roundPosCore n e).1 := by
  unfold roundPosCore
  split
  · exact Int.ofNat_nonneg _
  · exact roundBig_nonneg n e _

theorem roundPosCore_bound (n : ℕ) (e : ℤ) (hn : 1 ≤ n) :
    |((roundPosCore n e).1 : ℚ) * zpow2 (roundPosCore n e).2 - (n : ℚ) * zpow2 e| ≤
      (n : ℚ) * zpow2 e / pow2 53 := by
  obtain ⟨hL1, hL2⟩ := natLog2_spec n hn
  by_cases hsmall : natLog2 n ≤ 52
  · rw [roundPosCore_exact n e hsmall]
    simp only [sub_self, abs_zero]
    exact div_nonneg (pyval_nonneg n e) (le_of_lt (pow2_cast_pos 53))
  · have hrw : roundPosCore n e = roundBig n e (natLog2 n - 52) := by
      unfold roundPosCore
      rw [if_neg hsmall]
    rw [hrw]
    apply roundBig_spec n e (natLog2 n - 52) (by omega)
    have : natLog2 n - 52 + 52 = natLog2 n := by omega
    rw [this]
    exact hL1

theorem roundDy_m_nonneg (m e : ℤ) (h : 0 ≤ m) : 0 ≤ (roundDy m e).m := by
  match m, h with
  | .ofNat 0, _ => exact le_refl 0
  | .ofNat (k+1), _ => exact roundPosCore_nonneg (k+1) e

theorem toRat_roundDy_bound (m e : ℤ) (h : 0 ≤ m) :
    |toRat (roundDy m e) - (m : ℚ) * zpow2 e| ≤ (m : ℚ) * zpow2 e / pow2 53 := by
  match m, h with
  | .ofNat 0, _ =>
    show |toRat ⟨0, 0⟩ - 0 * zpow2 e| ≤ 0 * zpow2 e / pow2 53
    unfold toRat
    norm_num
  | .ofNat (k+1), _ =>
    have hb := roundPosCore_bound (k+1) e (by omega)
    have h1 : toRat (roundDy (Int.ofNat (k+1)) e) =
        ((roundPosCore (k+1) e).1 : ℚ) * zpow2 (roundPosCore (k+1) e).2 := rfl
    have h2 : ((Int.ofNat (k+1) : ℤ) : ℚ) = (((k+1 : ℕ)) : ℚ) := by exact_mod_cast rfl
    rw [h1, h2]
    exact hb

theorem toRat_roundDy_exact (n : ℕ) (e : ℤ) (h : n < pow2 53) :
    toRat (roundDy n e) = (n : ℚ) * zpow2 e := by
  match n with
  | 0 =>
    show toRat ⟨0, 0⟩ = (0 : ℚ) * zpow2 e
    unfold toRat
    norm_num
  | (k+1) =>
    have hlog : natLog2 (k+1) ≤ 52 := by
      by_contra hgt
      obtain ⟨h1, _⟩ := natLog2_spec (k+1) (by omega)
      rw [pow2_eq] at h
      have : (2:ℕ) ^ 53 ≤ 2 ^ natLog2 (k+1) := Nat.pow_le_pow_right (by norm_num) (by omega)
      omega
    have h1 : toRat (roundDy (Int.ofNat (k+1)) e) =
        ((roundPosCore (k+1) e).1 : ℚ) * zpow2 (roundPosCore (k+1) e).2 := rfl
    show toRat (roundDy (Int.ofNat (k+1)) e) = _
    rw [h1, roundPosCore_exact (k+1) e hlog]

theorem toRat_dyOfNat (n : ℕ) (h : n < pow2 53) : toRat (dyOfNat n) = (n : ℚ) := by
  unfold dyOfNat
  rw [toRat_roundDy_exact n 0 h, zpow2_zero, mul_one]

theorem dyOfNat_m_nonneg (n : ℕ) : 0 ≤ (dyOfNat n).m :=
  roundDy_m_nonneg n 0 (Int.ofNat_nonneg n)

theorem pyInt_eq_floor (d : Dy) (h : 0 ≤ d.m) : pyInt d = ⌊toRat d⌋ := by
  unfold pyInt
  rw [if_pos h]
  obtain ⟨n, hn⟩ := Int.eq_ofNat_of_zero_le h
  have htn : d.m.toNat = n := by rw [hn]; rfl
  rw [htn]
  unfold dyFloorAbs
  have hval : toRat d = (n : ℚ) * zpow2 d.e := by unfold toRat; rw [hn]; norm_num
  rw [hval]
  by_cases he : 0 ≤ d.e
  · rw [if_pos he]
    obtain ⟨c, hc⟩ := Int.eq_ofNat_of_zero_le he
    have htc : d.e.toNat = c := by rw [hc]; rfl
    rw [htc, natShiftLeft_eq, hc, zpow2_natCast]
    have : (n : ℚ) * ((2 ^ c : ℕ) : ℚ) = ((n * 2 ^ c : ℕ) : ℚ) := by push_cast; ring
    rw [this, Int.floor_natCast]
    rfl
  · rw [if_neg he]
    have he2 : d.e < 0 := by omega
    set c := (-d.e).toNat with hcdef
    have hc : d.e = -(c : ℤ) := by
      rw [hcdef]
      omega
    rw [natShiftRight_eq, hc]
    have hzc : zpow2 (-(c : ℤ)) = ((2 ^ c : ℕ) : ℚ)⁻¹ := by
      rw [zpow2_eq, zpow_neg]
      congr 1
      push_cast
      rw [zpow_natCast]
    rw [hzc]
    have hpos : (0:ℚ) < ((2 ^ c : ℕ) : ℚ) := by positivity
    have hcast : ((Int.ofNat (n / 2 ^ c) : ℤ) : ℚ) = ((n / 2 ^ c : ℕ) : ℚ) := by
      exact_mod_cast rfl
    have hdm := Nat.div_add_mod n (2 ^ c)
    have hmod : n % 2 ^ c < 2 ^ c := Nat.mod_lt n (by positivity)
    symm
    rw [Int.floor_eq_iff]
    constructor
    · show ((Int.ofNat (n / 2 ^ c) : ℤ) : ℚ) ≤ (n : ℚ) * ((2 ^ c : ℕ) : ℚ)⁻¹
      rw [hcast, le_mul_inv_iff₀ hpos]
      have h1 : (n / 2 ^ c) * 2 ^ c ≤ n := Nat.div_mul_le_self n (2 ^ c)
      calc ((n / 2 ^ c : ℕ) : ℚ) * ((2 ^ c : ℕ) : ℚ) = (((n / 2 ^ c) * 2 ^ c : ℕ) : ℚ) := by
            rw [Nat.cast_mul]
        _ ≤ (n : ℚ) := by exact_mod_cast h1
    · show (n : ℚ) * ((2 ^ c : ℕ) : ℚ)⁻¹ < ((Int.ofNat (n / 2 ^ c) : ℤ) : ℚ) + 1
      rw [hcast, mul_inv_lt_iff₀ hpos]
      have h2 : n < (n / 2 ^ c + 1) * 2 ^ c := by
        calc n < 2 ^ c * (n / 2 ^ c) + 2 ^ c := by omega
          _ = (n / 2 ^ c + 1) * 2 ^ c := by ring
      calc (n : ℚ) < (((n / 2 ^ c + 1) * 2 ^ c : ℕ) : ℚ) := by exact_mod_cast h2
        _ = (((n / 2 ^ c : ℕ) : ℚ) + 1) * ((2 ^ c : ℕ) : ℚ) := by push_cast; ring

theorem pyInt_nonneg (d : Dy) (h : 0 ≤ d.m) : 0 ≤ pyInt d := by
  unfold pyInt
  rw [if_pos h]
  exact Int.ofNat_nonneg _

theorem pyInt_cast_le (d : Dy) (h : 0 ≤ d.m) : ((pyInt d : ℤ) : ℚ) ≤ toRat d := by
  rw [pyInt_eq_floor d h]
  exact Int.floor_le (toRat d)

theorem toRat_dyMul_le (a b : Dy) (ha : 0 ≤ a.m) (hb : 0 ≤ b.m) :
    0 ≤ (dyMul a b).m ∧
      toRat (dyMul a b) ≤ toRat a * toRat b * (1 + 1 / (pow2 53 : ℚ)) := by
  have hm : 0 ≤ a.m * b.m := mul_nonneg ha hb
  constructor
  · exact roundDy_m_nonneg _ _ hm
  · have hexact : ((a.m * b.m : ℤ) : ℚ) * zpow2 (a.e + b.e) = toRat a * toRat b := by
      unfold toRat
      rw [zpow2_add]
      push_cast
      ring
    have hbnd := toRat_roundDy_bound (a.m * b.m) (a.e + b.e) hm
    rw [abs_le] at hbnd
    have h1 := hbnd.2
    have hP : (0:ℚ) ≤ ((a.m * b.m : ℤ) : ℚ) * zpow2 (a.e + b.e) := by
      apply mul_nonneg _ (le_of_lt (zpow2_pos _))
      exact_mod_cast hm
    have h2 : toRat (dyMul a b) ≤
        ((a.m * b.m : ℤ) : ℚ) * zpow2 (a.e + b.e) * (1 + 1 / (pow2 53 : ℚ)) := by
      have hq : ((a.m * b.m : ℤ) : ℚ) * zpow2 (a.e + b.e) * (1 + 1 / (pow2 53 : ℚ)) =
          ((a.m * b.m : ℤ) : ℚ) * zpow2 (a.e + b.e) +
            ((a.m * b.m : ℤ) : ℚ) * zpow2 (a.e + b.e) / (pow2 53 : ℚ) := by
        ring
      rw [hq]
      have := sub_le_iff_le_add.mp h1
      unfold dyMul
      unfold dyMul at this
      linarith
    rw [hexact] at h2
    exact h2

theorem pyInt_pyMulNat_bound (n : ℕ) (r : Dy) (hn : n < pow2 53) (hr : 0 ≤ r.m) :
    0 ≤ pyInt (pyMulNat n r) ∧
      ((pyInt (pyMulNat n r) : ℤ) : ℚ) ≤ (n : ℚ) * toRat r * (1 + 1 / (pow2 53 : ℚ)) := by
  have hna := dyOfNat_m_nonneg n
  obtain ⟨hm0, hle⟩ := toRat_dyMul_le (dyOfNat n) r hna hr
  constructor
  · exact pyInt_nonneg _ hm0
  · calc ((pyInt (pyMulNat n r) : ℤ) : ℚ) ≤ toRat (pyMulNat n r) := pyInt_cast_le _ hm0
      _ ≤ toRat (dyOfNat n) * toRat r * (1 + 1 / (pow2 53 : ℚ)) := hle
      _ = (n : ℚ) * toRat r * (1 + 1 / (pow2 53 : ℚ)) := by rw [toRat_dyOfNat n hn]

theorem split_sizes_bound (n : ℕ) (tr vl : Dy) (hn : n < pow2 53)
    (htr : 0 ≤ tr.m) (hvl : 0 ≤ vl.m) (hsum : toRat tr + toRat vl ≤ 1) :
    0 ≤ pyInt (pyMulNat n tr) ∧ 0 ≤ pyInt (pyMulNat n vl) ∧
      pyInt (pyMulNat n tr) + pyInt (pyMulNat n vl) ≤ (n : ℤ) := by
  obtain ⟨hA0, hA⟩ := pyInt_pyMulNat_bound n tr hn htr
  obtain ⟨hB0, hB⟩ := pyInt_pyMulNat_bound n vl hn hvl
  refine ⟨hA0, hB0, ?_⟩
  have htr0 : 0 ≤ toRat tr := (toRat_nonneg_iff tr).mpr htr
  have hvl0 : 0 ≤ toRat vl := (toRat_nonneg_iff vl).mpr hvl
  have heps : (0:ℚ) < 1 + 1 / (pow2 53 : ℚ) := by
    have := pow2_cast_pos 53
    positivity
  have hc : (n : ℚ) * toRat tr * (1 + 1 / (pow2 53 : ℚ)) +
      (n : ℚ) * toRat vl * (1 + 1 / (pow2 53 : ℚ)) ≤
      (n : ℚ) * (1 + 1 / (pow2 53 : ℚ)) := by
    have h1 : (n : ℚ) * toRat tr * (1 + 1 / (pow2 53 : ℚ)) +
        (n : ℚ) * toRat vl * (1 + 1 / (pow2 53 : ℚ)) =
        (n : ℚ) * (toRat tr + toRat vl) * (1 + 1 / (pow2 53 : ℚ)) := by ring
    rw [h1]
    have h2 : (n : ℚ) * (toRat tr + toRat vl) ≤ (n : ℚ) * 1 := by
      apply mul_le_mul_of_nonneg_left _ (by exact_mod_cast Nat.zero_le n)
      linarith
    calc (n : ℚ) * (toRat tr + toRat vl) * (1 + 1 / (pow2 53 : ℚ)) ≤
        ((n : ℚ) * 1) * (1 + 1 / (pow2 53 : ℚ)) :=
          mul_le_mul_of_nonneg_right h2 (le_of_lt heps)
      _ = (n : ℚ) * (1 + 1 / (pow2 53 : ℚ)) := by ring
  have hlt : (n : ℚ) * (1 + 1 / (pow2 53 : ℚ)) < (n : ℚ) + 1 := by
    have hx : (n : ℚ) * (1 + 1 / (pow2 53 : ℚ)) = (n : ℚ) + (n : ℚ) / (pow2 53 : ℚ) := by
      ring
    rw [hx]
    have hfrac : (n : ℚ) / (pow2 53 : ℚ) < 1 := by
      rw [div_lt_one (pow2_cast_pos 53)]
      exact_mod_cast hn
    linarith
  have hfin : ((pyInt (pyMulNat n tr) + pyInt (pyMulNat n vl) : ℤ) : ℚ) < (n : ℚ) + 1 := by
    push_cast
    calc ((pyInt (pyMulNat n tr) : ℤ) : ℚ) + ((pyInt (pyMulNat n vl) : ℤ) : ℚ) ≤
        (n : ℚ) * toRat tr * (1 + 1 / (pow2 53 : ℚ)) +
          (n : ℚ) * toRat vl * (1 + 1 / (pow2 53 : ℚ)) := by linarith
      _ ≤ (n : ℚ) * (1 + 1 / (pow2 53 : ℚ)) := hc
      _ < (n : ℚ) + 1 := hlt
  have hz : pyInt (pyMulNat n tr) + pyInt (pyMulNat n vl) < (n : ℤ) + 1 := by
    exact_mod_cast hfin
  omega


/-! ## List lemmas: swapping, shuffling, slicing -/

theorem cons_set_perm {α : Type} : ∀ (t : List α) (k : ℕ) (b c : α),
    t.get? k = some b → (b :: t.set k c).Perm (c :: t) := by
  intro t
  induction t with
  | nil => intro k b c h; simp at h
  | cons d t ih =>
    intro k b c h
    cases k with
    | zero =>
      have hdb : d = b := by simpa using h
      show (b :: c :: t).Perm (c :: d :: t)
      rw [← hdb]
      exact List.Perm.swap c d t
    | succ k =>
      simp only [List.get?] at h
      show (b :: d :: t.set k c).Perm (c :: d :: t)
      exact (List.Perm.swap d b _).trans (((ih k b c h).cons d).trans (List.Perm.swap c d t))

theorem set_set_perm {α : Type} : ∀ (x : List α) (i j : ℕ) (a b : α),
    x.get? i = some a → x.get? j = some b → ((x.set i b).set j a).Perm x := by
  intro x
  induction x with
  | nil => intro i j a b h1 _; simp at h1
  | cons c t ih =>
    intro i j a b h1 h2
    cases i with
    | zero =>
      have hca : c = a := by simpa using h1
      cases j with
      | zero =>
        show ((a : α) :: t).Perm (c :: t)
        rw [hca]
      | succ k =>
        simp only [List.get?] at h2
        show (b :: t.set k a).Perm (c :: t)
        rw [hca]
        exact cons_set_perm t k b a h2
    | succ m =>
      simp only [List.get?] at h1
      cases j with
      | zero =>
        have hcb : c = b := by simpa using h2
        show (a :: t.set m b).Perm (c :: t)
        rw [hcb]
        exact cons_set_perm t m a b h1
      | succ k =>
        simp only [List.get?] at h2
        show (c :: (t.set m b).set k a).Perm (c :: t)
        exact (ih m k a b h1 h2).cons c

theorem listSwap_perm {α : Type} (x : List α) (i j : ℕ) : (listSwap x i j).Perm x := by
  unfold listSwap
  cases hgi : x.get? i with
  | none => exact List.Perm.refl x
  | some a =>
    cases hgj : x.get? j with
    | none => exact List.Perm.refl x
    | some b => exact set_set_perm x i j a b hgi hgj

theorem shuffleGo_perm {α : Type} : ∀ (k : ℕ) (x : List α) (s : ℕ),
    ((shuffleGo k x s).1).Perm x := by
  intro k
  induction k with
  | zero => intro x s; exact List.Perm.refl x
  | succ k ih =>
    intro x s
    show ((shuffleGo k (listSwap x (k+1) (randbelow s (k+2)).1) (randbelow s (k+2)).2).1).Perm x
    exact (ih _ _).trans (listSwap_perm x (k+1) _)

theorem pyShuffle_perm {α : Type} (x : List α) (s : ℕ) : ((pyShuffle x s).1).Perm x :=
  shuffleGo_perm (x.length - 1) x s

theorem pyShuffle_length {α : Type} (x : List α) (s : ℕ) :
    (pyShuffle x s).1.length = x.length :=
  (pyShuffle_perm x s).length_eq

theorem gather_files_perm (l : List String) : (gather_files l).Perm l :=
  List.perm_insertionSort _ l

theorem gather_all_files_perm {β : Type} (fs : List (String × Option (List β))) :
    (gather_all_files fs).Perm (fs.map Prod.fst) :=
  List.perm_insertionSort _ _

theorem pyRange_length (a b : ℤ) : (pyRange a b).length = (b - a).toNat := by
  simp [pyRange]

theorem pyRange_zero (a : ℤ) : pyRange a a = [] := by
  simp [pyRange]

theorem pyRange_succ (a : ℤ) (k : ℕ) :
    pyRange a (a + ((k : ℤ) + 1)) = a :: pyRange (a + 1) (a + ((k : ℤ) + 1)) := by
  unfold pyRange
  have h1 : (a + ((k : ℤ) + 1) - a).toNat = k + 1 := by omega
  have h2 : (a + ((k : ℤ) + 1) - (a + 1)).toNat = k := by omega
  rw [h1, h2, List.range_succ_eq_map, List.map_cons, List.map_map]
  congr 1
  · show a + Int.ofNat 0 = a
    simp
  · apply List.map_congr_left
    intro j _
    show a + Int.ofNat (j + 1) = a + 1 + Int.ofNat j
    simp only [Int.ofNat_eq_coe]
    push_cast
    ring

theorem pyIndex_nonneg_lt {α : Type} (x : List α) (i : ℤ) (h0 : 0 ≤ i)
    (hl : i < (x.length : ℤ)) : pyIndex x i = x.get? i.toNat := by
  unfold pyIndex
  rw [if_pos h0]

theorem mapOpt_pyRange_slice {α : Type} :
    ∀ (k : ℕ) (lo : ℤ) (x : List α), 0 ≤ lo → lo + (k : ℤ) ≤ (x.length : ℤ) →
      mapOpt (pyIndex x) (pyRange lo (lo + (k : ℤ))) = some ((x.drop lo.toNat).take k) := by
  intro k
  induction k with
  | zero =>
    intro lo x h0 hk
    have h1 : lo + ((0:ℕ) : ℤ) = lo := by norm_num
    rw [h1, pyRange_zero]
    simp [mapOpt]
  | succ k ih =>
    intro lo x h0 hk
    have hcast : lo + ((k + 1 : ℕ) : ℤ) = lo + ((k : ℤ) + 1) := by push_cast; ring
    rw [hcast, pyRange_succ]
    have hlt : lo < (x.length : ℤ) := by push_cast at hk; omega
    have hltn : lo.toNat < x.length := by omega
    have hidx : pyIndex x lo = some (x.get ⟨lo.toNat, hltn⟩) := by
      rw [pyIndex_nonneg_lt x lo h0 hlt, List.get?_eq_get hltn]
    have harg : lo + ((k : ℤ) + 1) = (lo + 1) + (k : ℤ) := by ring
    have hrec : mapOpt (pyIndex x) (pyRange (lo + 1) ((lo + 1) + (k : ℤ))) =
        some ((x.drop (lo + 1).toNat).take k) := by
      apply ih (lo + 1) x (by omega)
      push_cast at hk
      push_cast
      omega
    rw [harg]
    show mapOpt (pyIndex x) ((lo : ℤ) :: pyRange (lo + 1) (lo + 1 + (k : ℤ))) = _
    unfold mapOpt
    rw [hidx, hrec]
    have hdrop : x.drop lo.toNat = x.get ⟨lo.toNat, hltn⟩ :: x.drop (lo.toNat + 1) := by
      rw [List.drop_eq_get_cons hltn]
    have htn : (lo + 1).toNat = lo.toNat + 1 := by omega
    rw [htn, hdrop]
    rfl


/-! ## Lemmas on the duplicate scan -/

theorem lookupHash_cons {δ : Type} [DecidableEq δ] (k a : δ) (b : String)
    (l : List (δ × String)) :
    lookupHash k ((a, b) :: l) = if a = k then some b else lookupHash k l := rfl

theorem lookupHash_append {δ : Type} [DecidableEq δ] (k : δ) :
    ∀ (l1 l2 : List (δ × String)),
      lookupHash k (l1 ++ l2) = (lookupHash k l1).or (lookupHash k l2) := by
  intro l1 l2
  induction l1 with
  | nil => simp [lookupHash]
  | cons e l1 ih =>
    rcases e with ⟨a, b⟩
    show lookupHash k ((a, b) :: (l1 ++ l2)) = (lookupHash k ((a, b) :: l1)).or (lookupHash k l2)
    rw [lookupHash_cons, lookupHash_cons]
    by_cases hak : a = k
    · rw [if_pos hak, if_pos hak]
      rfl
    · rw [if_neg hak, if_neg hak]
      exact ih

theorem fdGo_cons {δ : Type} [DecidableEq δ] (hashOf : String → Option δ)
    (p : String) (rest : List String) (hashes : List (δ × String))
    (dups : List (String × String)) :
    fdGo hashOf (p :: rest) hashes dups =
      (match hashOf p with
        | none => Except.error p
        | some h =>
          match lookupHash h hashes with
          | some orig => fdGo hashOf rest hashes (dups ++ [(p, orig)])
          | none => fdGo hashOf rest (hashes ++ [(h, p)]) dups) := rfl

theorem fdGo_cons_err {δ : Type} [DecidableEq δ] (hashOf : String → Option δ)
    (p : String) (rest : List String) (hashes : List (δ × String))
    (dups : List (String × String)) (hp : hashOf p = none) :
    fdGo hashOf (p :: rest) hashes dups = .error p := by
  rw [fdGo_cons, hp]

theorem fdGo_cons_dup {δ : Type} [DecidableEq δ] (hashOf : String → Option δ)
    (p : String) (rest : List String) (hashes : List (δ × String))
    (dups : List (String × String)) (h : δ) (orig : String)
    (hp : hashOf p = some h) (hl : lookupHash h hashes = some orig) :
    fdGo hashOf (p :: rest) hashes dups = fdGo hashOf rest hashes (dups ++ [(p, orig)]) := by
  rw [fdGo_cons, hp]
  show (match lookupHash h hashes with
    | some orig => fdGo hashOf rest hashes (dups ++ [(p, orig)])
    | none => fdGo hashOf rest (hashes ++ [(h, p)]) dups) = _
  rw [hl]

theorem fdGo_cons_new {δ : Type} [DecidableEq δ] (hashOf : String → Option δ)
    (p : String) (rest : List String) (hashes : List (δ × String))
    (dups : List (String × String)) (h : δ)
    (hp : hashOf p = some h) (hl : lookupHash h hashes = none) :
    fdGo hashOf (p :: rest) hashes dups = fdGo hashOf rest (hashes ++ [(h, p)]) dups := by
  rw [fdGo_cons, hp]
  show (match lookupHash h hashes with
    | some orig => fdGo hashOf rest hashes (dups ++ [(p, orig)])
    | none => fdGo hashOf rest (hashes ++ [(h, p)]) dups) = _
  rw [hl]

theorem fdGo_error {δ : Type} [DecidableEq δ] (hashOf : String → Option δ) :
    ∀ (rest : List String) (hashes : List (δ × String)) (dups : List (String × String))
      (q : String), rest.find? (fun p => (hashOf p).isNone) = some q →
      fdGo hashOf rest hashes dups = .error q := by
  intro rest
  induction rest with
  | nil => intro hashes dups q h; simp at h
  | cons p rest ih =>
    intro hashes dups q h
    cases hp : hashOf p with
    | none =>
      have hq : q = p := by
        rw [List.find?_cons_of_pos] at h
        · exact (Option.some_inj.mp h).symm
        · simp [hp]
      subst hq
      exact fdGo_cons_err hashOf q rest hashes dups hp
    | some hv =>
      have hfind : rest.find? (fun p => (hashOf p).isNone) = some q := by
        rw [List.find?_cons_of_neg] at h
        · exact h
        · simp [hp]
      cases hlook : lookupHash hv hashes with
      | some orig =>
        rw [fdGo_cons_dup hashOf p rest hashes dups hv orig hp hlook]
        exact ih _ _ q hfind
      | none =>
        rw [fdGo_cons_new hashOf p rest hashes dups hv hp hlook]
        exact ih _ _ q hfind

theorem dupPairs_cons {δ : Type} [DecidableEq δ] (f : String → δ) (seen : List String)
    (p : String) (rest : List String) :
    dupPairs f seen (p :: rest) =
      (match seen.find? (fun q => decide (f q = f p)) with
        | some q => [(p, q)]
        | none => []) ++ dupPairs f (seen ++ [p]) rest := rfl

theorem fdGo_ok {δ : Type} [DecidableEq δ] (hashOf : String → Option δ) (f : String → δ) :
    ∀ (rest seen : List String) (hashes : List (δ × String)) (dups : List (String × String)),
      (∀ p ∈ rest, hashOf p = some (f p)) →
      (∀ h, lookupHash h hashes = seen.find? (fun q => decide (f q = h))) →
      fdGo hashOf rest hashes dups = .ok (dups ++ dupPairs f seen rest) := by
  intro rest
  induction rest with
  | nil =>
    intro seen hashes dups hread hinv
    show Except.ok dups = _
    simp [dupPairs]
  | cons p rest ih =>
    intro seen hashes dups hread hinv
    have hp : hashOf p = some (f p) := hread p (by simp)
    have hl := hinv (f p)
    cases hfind : seen.find? (fun q => decide (f q = f p)) with
    | some orig =>
      rw [hfind] at hl
      rw [fdGo_cons_dup hashOf p rest hashes dups (f p) orig hp hl]
      have hinv2 : ∀ h, lookupHash h hashes =
          (seen ++ [p]).find? (fun q => decide (f q = h)) := by
        intro h
        rw [List.find?_append]
        cases hsf : seen.find? (fun q => decide (f q = h)) with
        | some x => rw [hinv h, hsf]; rfl
        | none =>
          rw [hinv h, hsf]
          show none = (Option.none.or ([p].find? (fun q => decide (f q = h))))
          by_cases hfp : f p = h
          · subst hfp
            rw [hfind] at hsf
            simp at hsf
          · simp [List.find?, hfp]
      rw [ih (seen ++ [p]) hashes (dups ++ [(p, orig)])
        (fun q hq => hread q (by simp [hq])) hinv2]
      rw [dupPairs_cons, hfind, List.append_assoc]
    | none =>
      rw [hfind] at hl
      rw [fdGo_cons_new hashOf p rest hashes dups (f p) hp hl]
      have hinv2 : ∀ h, lookupHash h (hashes ++ [(f p, p)]) =
          (seen ++ [p]).find? (fun q => decide (f q = h)) := by
        intro h
        rw [List.find?_append, lookupHash_append, hinv h]
        congr 1
        show lookupHash h [(f p, p)] = [p].find? (fun q => decide (f q = h))
        rw [lookupHash_cons]
        by_cases hfp : f p = h
        · rw [if_pos hfp]
          simp [List.find?, hfp]
        · rw [if_neg hfp]
          simp [List.find?, hfp, lookupHash]
      rw [ih (seen ++ [p]) (hashes ++ [(f p, p)]) dups
        (fun q hq => hread q (by simp [hq])) hinv2]
      rw [dupPairs_cons, hfind]
      rfl

theorem dupPairs_cons_found {δ : Type} [DecidableEq δ] (f : String → δ) (seen : List String)
    (p : String) (rest : List String) (q : String)
    (hfind : seen.find? (fun q => decide (f q = f p)) = some q) :
    dupPairs f seen (p :: rest) = (p, q) :: dupPairs f (seen ++ [p]) rest := by
  rw [dupPairs_cons, hfind]
  rfl

theorem dupPairs_cons_none {δ : Type} [DecidableEq δ] (f : String → δ) (seen : List String)
    (p : String) (rest : List String)
    (hfind : seen.find? (fun q => decide (f q = f p)) = none) :
    dupPairs f seen (p :: rest) = dupPairs f (seen ++ [p]) rest := by
  rw [dupPairs_cons, hfind]
  rfl

theorem mem_dupPairs {δ : Type} [DecidableEq δ] (f : String → δ) :
    ∀ (rest seen : List String), (seen ++ rest).Nodup →
      ∀ (d c : String), ((d, c) ∈ dupPairs f seen rest ↔
        (d ∈ rest ∧ (seen ++ rest).find? (fun q => decide (f q = f d)) = some c ∧ c ≠ d)) := by
  intro rest
  induction rest with
  | nil =>
    intro seen _ d c
    simp [dupPairs]
  | cons p rest ih =>
    intro seen hnd d c
    have hassoc : seen ++ p :: rest = (seen ++ [p]) ++ rest := by simp
    have hnd2 : ((seen ++ [p]) ++ rest).Nodup := by rw [← hassoc]; exact hnd
    obtain ⟨hndseen, hndrest, hdisj⟩ := List.nodup_append.mp hnd
    have hpnotrest : p ∉ rest := (List.nodup_cons.mp hndrest).1
    have hpnotseen : p ∉ seen := fun hin => hdisj hin (List.mem_cons_self p rest)
    cases hfd : seen.find? (fun q => decide (f q = f p)) with
    | some q =>
      rw [dupPairs_cons_found f seen p rest q hfd, List.mem_cons]
      have hq : q ∈ seen := List.mem_of_find?_eq_some hfd
      have hqp : q ≠ p := fun he => hpnotseen (he ▸ hq)
      by_cases hdp : d = p
      · subst hdp
        have hih := ih (seen ++ [d]) hnd2 d c
        have hsecond : ((d, c) ∈ dupPairs f (seen ++ [d]) rest) ↔ False := by
          rw [hih]
          simp only [iff_false]
          intro hcon
          exact hpnotrest hcon.1
        rw [hsecond, or_false]
        have hfindfull : (seen ++ d :: rest).find? (fun x => decide (f x = f d)) =
            some q := by
          rw [List.find?_append, hfd]
          rfl
        rw [hfindfull]
        constructor
        · intro hmem
          have hc : c = q := (Prod.mk.injEq d c d q ▸ hmem).2
          exact ⟨List.mem_cons_self d rest, by rw [hc], by rw [hc]; exact hqp⟩
        · intro ⟨_, hsome, hcd⟩
          have hc : q = c := Option.some_inj.mp hsome
          rw [Prod.mk.injEq]
          exact ⟨rfl, hc.symm⟩
      · have hfirst : ((d, c) = (p, q)) ↔ False := by
          simp only [iff_false, Prod.mk.injEq, not_and]
          intro hcon
          exact absurd hcon hdp
        rw [hfirst, false_or]
        rw [ih (seen ++ [p]) hnd2 d c]
        rw [← hassoc]
        constructor
        · intro ⟨h1, h2, h3⟩
          exact ⟨List.mem_cons_of_mem p h1, h2, h3⟩
        · intro ⟨h1, h2, h3⟩
          have hdr : d ∈ rest := by
            rcases List.mem_cons.mp h1 with h | h
            · exact absurd h hdp
            · exact h
          exact ⟨hdr, h2, h3⟩
    | none =>
      rw [dupPairs_cons_none f seen p rest hfd]
      by_cases hdp : d = p
      · subst hdp
        have hih := ih (seen ++ [d]) hnd2 d c
        have hlhs : ((d, c) ∈ dupPairs f (seen ++ [d]) rest) ↔ False := by
          rw [hih]
          simp only [iff_false]
          intro hcon
          exact hpnotrest hcon.1
        rw [hlhs]
        have hfindfull : (seen ++ d :: rest).find? (fun x => decide (f x = f d)) =
            some d := by
          rw [List.find?_append, hfd]
          show Option.none.or ((d :: rest).find? (fun x => decide (f x = f d))) = some d
          rw [List.find?_cons_of_pos]
          · rfl
          · simp
        rw [hfindfull]
        constructor
        · intro hcon
          exact absurd hcon (by simp)
        · intro ⟨_, hsome, hcd⟩
          exact absurd (Option.some_inj.mp hsome).symm hcd
      · rw [ih (seen ++ [p]) hnd2 d c]
        rw [← hassoc]
        constructor
        · intro ⟨h1, h2, h3⟩
          exact ⟨List.mem_cons_of_mem p h1, h2, h3⟩
        · intro ⟨h1, h2, h3⟩
          have hdr : d ∈ rest := by
            rcases List.mem_cons.mp h1 with h | h
            · exact absurd h hdp
            · exact h
          exact ⟨hdr, h2, h3⟩

/-! ## Deletion, block reading, collision loop -/

theorem removeAll_cons {β : Type} (fs : List (String × Option (List β))) (p : String)
    (rest : List String) :
    removeAll fs (p :: rest) =
      (if (removeFile fs p).1 then
        ((p :: (removeAll (removeFile fs p).2 rest).1),
          (removeAll (removeFile fs p).2 rest).2.1,
          (removeAll (removeFile fs p).2 rest).2.2)
      else
        ((removeAll (removeFile fs p).2 rest).1,
          (p :: (removeAll (removeFile fs p).2 rest).2.1),
          (removeAll (removeFile fs p).2 rest).2.2)) := by
  show (match removeFile fs p with
    | (true, fs1) =>
      match removeAll fs1 rest with
      | (rem, fail, fs2) => (p :: rem, fail, fs2)
    | (false, fs1) =>
      match removeAll fs1 rest with
      | (rem, fail, fs2) => (rem, p :: fail, fs2)) = _
  rcases hrf : removeFile fs p with ⟨b, fs1⟩
  cases b
  · rcases hra : removeAll fs1 rest with ⟨rem, fail, fs2⟩
    simp [hra]
  · rcases hra : removeAll fs1 rest with ⟨rem, fail, fs2⟩
    simp [hra]

theorem removeAll_removed_subset {β : Type} :
    ∀ (l : List String) (fs : List (String × Option (List β))),
      ∀ x ∈ (removeAll fs l).1, x ∈ l := by
  intro l
  induction l with
  | nil => intro fs x hx; simp [removeAll] at hx
  | cons p rest ih =>
    intro fs x hx
    rw [removeAll_cons] at hx
    by_cases hb : (removeFile fs p).1
    · rw [if_pos hb] at hx
      rcases List.mem_cons.mp hx with h | h
      · simp [h]
      · exact List.mem_cons_of_mem p (ih _ x h)
    · rw [if_neg hb] at hx
      exact List.mem_cons_of_mem p (ih _ x hx)

theorem readBlocksGo_flatten {β : Type} :
    ∀ (f : ℕ) (l : List β), l.length ≤ f → (readBlocksGo f l).flatten = l := by
  intro f
  induction f with
  | zero =>
    intro l h
    have : l = [] := List.eq_nil_of_length_eq_zero (by omega)
    subst this
    rfl
  | succ f ih =>
    intro l h
    show (if l.isEmpty then [] else l.take 65536 :: readBlocksGo f (l.drop 65536)).flatten = l
    by_cases he : l.isEmpty
    · rw [if_pos he]
      rw [List.isEmpty_iff] at he
      rw [he]
      rfl
    · rw [if_neg he]
      rw [List.isEmpty_iff] at he
      have hlen : 1 ≤ l.length := by
        cases l with
        | nil => exact absurd rfl he
        | cons a t => simp
      rw [List.flatten_cons, ih (l.drop 65536) (by simp; omega)]
      exact List.take_append_drop 65536 l

theorem compute_hash_content {β δ : Type} (sha : List β → δ) (content : List β) :
    compute_hash sha content = sha content := by
  unfold compute_hash readBlocks
  rw [readBlocksGo_flatten content.length content le_rfl]

theorem collisionLoop_spec (occupied : List String) (target : String) :
    ∀ (f idx : ℕ), (∃ n, idx ≤ n ∧ n ≤ idx + f ∧ collCand target n ∉ occupied) →
      ∃ n, idx ≤ n ∧ collisionLoop occupied target f idx = collCand target n ∧
        collCand target n ∉ occupied ∧
        ∀ m, idx ≤ m → m < n → collCand target m ∈ occupied := by
  intro f
  induction f with
  | zero =>
    intro idx h
    obtain ⟨n, h1, h2, h3⟩ := h
    have hn : n = idx := by omega
    subst hn
    exact ⟨n, le_rfl, rfl, h3, fun m hm1 hm2 => absurd (lt_of_le_of_lt hm1 hm2) (lt_irrefl n)⟩
  | succ f ih =>
    intro idx h
    obtain ⟨n0, h1, h2, h3⟩ := h
    have hstep : collisionLoop occupied target (f + 1) idx =
        (if occupied.contains (collCand target idx) then
          collisionLoop occupied target f (idx + 1)
        else collCand target idx) := rfl
    by_cases hc : occupied.contains (collCand target idx) = true
    · have hmem : collCand target idx ∈ occupied := by simpa using hc
      have hn0 : idx + 1 ≤ n0 := by
        rcases Nat.eq_or_lt_of_le h1 with he | hlt
        · exfalso
          rw [← he] at h3
          exact h3 hmem
        · omega
      obtain ⟨n, hn1, hn2, hn3, hn4⟩ := ih (idx + 1) ⟨n0, hn0, by omega, h3⟩
      refine ⟨n, by omega, ?_, hn3, ?_⟩
      · rw [hstep, if_pos hc]
        exact hn2
      · intro m hm1 hm2
        rcases Nat.eq_or_lt_of_le hm1 with he | hlt
        · rw [← he]
          exact hmem
        · exact hn4 m (by omega) hm2
    · have hnotmem : collCand target idx ∉ occupied := by
        simp at hc
        exact hc
      refine ⟨idx, le_rfl, ?_, hnotmem,
        fun m hm1 hm2 => absurd (lt_of_le_of_lt hm1 hm2) (lt_irrefl idx)⟩
      rw [hstep, if_neg hc]

/-! ## Unfolding equations for the two main routines -/

theorem mainSplit_invalid (prior seed : ℕ) (listing : List String) (tr vl te : Dy)
    (h : validate_ratios tr vl te = false) :
    mainSplit prior seed listing tr vl te = ⟨.ratioErr, [], [], []⟩ := by
  unfold mainSplit
  rw [if_pos h]

theorem mainSplit_empty (prior seed : ℕ) (listing : List String) (tr vl te : Dy)
    (hv : validate_ratios tr vl te = true) (hl : listing = []) :
    mainSplit prior seed listing tr vl te = ⟨.emptyErr, [], [], []⟩ := by
  unfold mainSplit
  rw [if_neg (by simp [hv])]
  subst hl
  rfl

theorem mainSplit_run (prior seed : ℕ) (listing : List String) (tr vl te : Dy)
    (hv : validate_ratios tr vl te = true) (hne : (gather_files listing).isEmpty = false) :
    mainSplit prior seed listing tr vl te =
      ⟨buildSubsets ((pyShuffle (gather_files listing) (pySeed seed)).1)
          (split_indices (gather_files listing).length tr vl).1
          (split_indices (gather_files listing).length tr vl).2.1
          (split_indices (gather_files listing).length tr vl).2.2,
        (pyShuffle (gather_files listing) (pySeed seed)).1,
        dirsOf (buildSubsets ((pyShuffle (gather_files listing) (pySeed seed)).1)
          (split_indices (gather_files listing).length tr vl).1
          (split_indices (gather_files listing).length tr vl).2.1
          (split_indices (gather_files listing).length tr vl).2.2),
        opsOf (buildSubsets ((pyShuffle (gather_files listing) (pySeed seed)).1)
          (split_indices (gather_files listing).length tr vl).1
          (split_indices (gather_files listing).length tr vl).2.1
          (split_indices (gather_files listing).length tr vl).2.2)⟩ := by
  unfold mainSplit
  rw [if_neg (by simp [hv]), if_neg (by simp [hne])]

theorem buildSubsets_ok (x : List String) (ti vi si : List ℤ)
    (t v s : List String)
    (h1 : mapOpt (pyIndex x) ti = some t) (h2 : mapOpt (pyIndex x) vi = some v)
    (h3 : mapOpt (pyIndex x) si = some s) :
    buildSubsets x ti vi si = .ok t v s := by
  unfold buildSubsets
  rw [h1, h2, h3]

theorem cleanupMain_crash {β δ : Type} [DecidableEq δ] (sha : List β → δ)
    (judge : List β → Bool) (fs : List (String × Option (List β))) (dryRun : Bool)
    (p : String) (h : find_duplicates sha fs (gather_all_files fs) = .error p) :
    cleanupMain sha judge fs dryRun = ⟨some p, [], [], [], [], [], [], fs⟩ := by
  unfold cleanupMain
  dsimp only
  rw [h]

theorem cleanupMain_ok_dry {β δ : Type} [DecidableEq δ] (sha : List β → δ)
    (judge : List β → Bool) (fs : List (String × Option (List β)))
    (dups : List (String × String))
    (h : find_duplicates sha fs (gather_all_files fs) = .ok dups) :
    cleanupMain sha judge fs true =
      ⟨none, dups,
        (gather_all_files fs).filter
          (fun p => (IMAGE_EXTENSIONS.contains (strLower (splitext p).2)) &&
            is_corrupt_image judge fs p),
        [], [], [], [], fs⟩ := by
  unfold cleanupMain
  dsimp only
  rw [h]
  rfl

theorem cleanupMain_ok_live {β δ : Type} [DecidableEq δ] (sha : List β → δ)
    (judge : List β → Bool) (fs : List (String × Option (List β)))
    (dups : List (String × String))
    (h : find_duplicates sha fs (gather_all_files fs) = .ok dups) :
    cleanupMain sha judge fs false =
      ⟨none, dups,
        (gather_all_files fs).filter
          (fun p => (IMAGE_EXTENSIONS.contains (strLower (splitext p).2)) &&
            is_corrupt_image judge fs p),
        (removeAll fs (dups.map Prod.fst)).1,
        (removeAll fs (dups.map Prod.fst)).2.1,
        (removeAll (removeAll fs (dups.map Prod.fst)).2.2
          ((gather_all_files fs).filter
            (fun p => (IMAGE_EXTENSIONS.contains (strLower (splitext p).2)) &&
              is_corrupt_image judge fs p))).1,
        (removeAll (removeAll fs (dups.map Prod.fst)).2.2
          ((gather_all_files fs).filter
            (fun p => (IMAGE_EXTENSIONS.contains (strLower (splitext p).2)) &&
              is_corrupt_image judge fs p))).2.1,
        (removeAll (removeAll fs (dups.map Prod.fst)).2.2
          ((gather_all_files fs).filter
            (fun p => (IMAGE_EXTENSIONS.contains (strLower (splitext p).2)) &&
              is_corrupt_image judge fs p))).2.2⟩ := by
  unfold cleanupMain
  dsimp only
  rw [h]
  rfl

theorem find?_congr {α : Type} (p q : α → Bool) :
    ∀ (l : List α), (∀ x ∈ l, p x = q x) → l.find? p = l.find? q := by
  intro l
  induction l with
  | nil => intro _; rfl
  | cons a t ih =>
    intro h
    have ha := h a (by simp)
    by_cases hp : p a = true
    · rw [List.find?_cons_of_pos _ hp, List.find?_cons_of_pos _ (by rw [← ha]; exact hp)]
    · rw [List.find?_cons_of_neg _ hp, List.find?_cons_of_neg _ (by rw [← ha]; exact hp)]
      exact ih (fun x hx => h x (by simp [hx]))

set_option maxRecDepth 4000

/-! # Claim theorems -/

/-- C9: partitioning is deterministic as a two-run property: two runs of
split_dataset.main with the same seed, the same input listing in the
same order, and the same ratio triple produce identical results — the
same shuffled order and the same membership of every subset — whatever
pseudo-random generator state the process held before each run
(random.seed overwrites it). -/
theorem C9_partition_determinism (p1 p2 seed : ℕ) (listing : List String) (tr vl te : Dy) :
    mainSplit p1 seed listing tr vl te = mainSplit p2 seed listing tr vl te := rfl

/-- C5: configuration failures are fatal and early: a ratio triple the
validation rejects (the float value of abs((train+val+test) - 1.0) is
not below 1e-6) makes main exit with the ratio error before creating
any directory or attempting any placement, and when validation passes
but the input listing is empty, main exits with the empty-input error,
again with no directories created and no placement attempted. -/
theorem C5_config_failures_fatal (prior seed : ℕ) (listing : List String) (tr vl te : Dy) :
    (validate_ratios tr vl te = false →
      mainSplit prior seed listing tr vl te = ⟨.ratioErr, [], [], []⟩) ∧
    (validate_ratios tr vl te = true → listing = [] →
      mainSplit prior seed listing tr vl te = ⟨.emptyErr, [], [], []⟩) :=
  ⟨fun h => mainSplit_invalid prior seed listing tr vl te h,
   fun hv hl => mainSplit_empty prior seed listing tr vl te hv hl⟩

/-- C5 witness: the ratio triple (0.7, 0.2, 0.15) is rejected and the
run performs nothing; the valid triple (0.7, 0.2, 0.1) with an empty
listing exits with the empty-input error and performs nothing. -/
theorem C5_config_failures_fatal_witness :
    validate_ratios (dyOfRatPos 7 10) (dyOfRatPos 2 10) (dyOfRatPos 15 100) = false ∧
    mainSplit 0 42 ["a.jpg"] (dyOfRatPos 7 10) (dyOfRatPos 2 10) (dyOfRatPos 15 100) =
      ⟨.ratioErr, [], [], []⟩ ∧
    validate_ratios (dyOfRatPos 7 10) (dyOfRatPos 2 10) (dyOfRatPos 1 10) = true ∧
    mainSplit 0 42 ([] : List String) (dyOfRatPos 7 10) (dyOfRatPos 2 10) (dyOfRatPos 1 10) =
      ⟨.emptyErr, [], [], []⟩ := by
  refine ⟨by decide, ?_, by decide, ?_⟩
  · exact (C5_config_failures_fatal 0 42 ["a.jpg"] _ _ _).1 (by decide)
  · exact (C5_config_failures_fatal 0 42 [] _ _ _).2 (by decide) rfl

/-- C3: subset sizes follow the floor-then-absorb policy: the first
index block has int(n * train_r) entries, the second int(n * val_r), and
the third all n - int(n * train_r) - int(n * val_r) remaining indices
(whenever those counts are nonnegative and fit in n); in particular for
n = 10 with ratios (0.7, 0.2, 0.1) the sizes are (7, 2, 1), and for
n = 7 they are (4, 1, 2), matching Python float arithmetic where
int(10 * 0.7) = 7 and int(7 * 0.7) = 4. -/
theorem C3_floor_then_absorb :
    (∀ (n : ℕ) (tr vl : Dy),
      0 ≤ pyInt (pyMulNat n tr) → 0 ≤ pyInt (pyMulNat n vl) →
      pyInt (pyMulNat n tr) + pyInt (pyMulNat n vl) ≤ (n : ℤ) →
      (((split_indices n tr vl).1.length : ℤ) = pyInt (pyMulNat n tr) ∧
       ((split_indices n tr vl).2.1.length : ℤ) = pyInt (pyMulNat n vl) ∧
       ((split_indices n tr vl).2.2.length : ℤ) =
         (n : ℤ) - pyInt (pyMulNat n tr) - pyInt (pyMulNat n vl))) ∧
    ((split_indices 10 (dyOfRatPos 7 10) (dyOfRatPos 2 10)).1.length = 7 ∧
     (split_indices 10 (dyOfRatPos 7 10) (dyOfRatPos 2 10)).2.1.length = 2 ∧
     (split_indices 10 (dyOfRatPos 7 10) (dyOfRatPos 2 10)).2.2.length = 1) ∧
    ((split_indices 7 (dyOfRatPos 7 10) (dyOfRatPos 2 10)).1.length = 4 ∧
     (split_indices 7 (dyOfRatPos 7 10) (dyOfRatPos 2 10)).2.1.length = 1 ∧
     (split_indices 7 (dyOfRatPos 7 10) (dyOfRatPos 2 10)).2.2.length = 2) := by
  refine ⟨?_, by decide, by decide⟩
  intro n tr vl h1 h2 h3
  unfold split_indices
  dsimp only
  rw [pyRange_length, pyRange_length, pyRange_length]
  refine ⟨by omega, by omega, by omega⟩

/-- C3 witness: the general size formula applied at n = 10 with ratios
(0.7, 0.2), all hypotheses discharged by computation. -/
theorem C3_floor_then_absorb_witness :
    ((split_indices 10 (dyOfRatPos 7 10) (dyOfRatPos 2 10)).1.length : ℤ) =
      pyInt (pyMulNat 10 (dyOfRatPos 7 10)) ∧
    ((split_indices 10 (dyOfRatPos 7 10) (dyOfRatPos 2 10)).2.1.length : ℤ) =
      pyInt (pyMulNat 10 (dyOfRatPos 2 10)) ∧
    ((split_indices 10 (dyOfRatPos 7 10) (dyOfRatPos 2 10)).2.2.length : ℤ) =
      (10 : ℤ) - pyInt (pyMulNat 10 (dyOfRatPos 7 10)) - pyInt (pyMulNat 10 (dyOfRatPos 2 10)) :=
  C3_floor_then_absorb.1 10 (dyOfRatPos 7 10) (dyOfRatPos 2 10)
    (by decide) (by decide) (by decide)

/-- C4: dry-run equivalence: the classification output of
cleanup_dataset.main — the crash status, the duplicate pairs and the
corrupt path list — is identical under dry-run and live mode on the same
snapshot, and the dry run performs zero filesystem mutations: it deletes
nothing, records no deletion failures, and leaves the snapshot
unchanged. -/
theorem C4_dry_run_equivalence {β δ : Type} [DecidableEq δ] (sha : List β → δ)
    (judge : List β → Bool) (fs : List (String × Option (List β))) :
    (cleanupMain sha judge fs true).crash = (cleanupMain sha judge fs false).crash ∧
    (cleanupMain sha judge fs true).duplicates = (cleanupMain sha judge fs false).duplicates ∧
    (cleanupMain sha judge fs true).corrupts = (cleanupMain sha judge fs false).corrupts ∧
    (cleanupMain sha judge fs true).removedDups = [] ∧
    (cleanupMain sha judge fs true).removedCorrupts = [] ∧
    (cleanupMain sha judge fs true).failedDups = [] ∧
    (cleanupMain sha judge fs true).failedCorrupts = [] ∧
    (cleanupMain sha judge fs true).fsAfter = fs := by
  cases h : find_duplicates sha fs (gather_all_files fs) with
  | error p =>
    rw [cleanupMain_crash sha judge fs true p h, cleanupMain_crash sha judge fs false p h]
    exact ⟨rfl, rfl, rfl, rfl, rfl, rfl, rfl, rfl⟩
  | ok dups =>
    rw [cleanupMain_ok_dry sha judge fs dups h, cleanupMain_ok_live sha judge fs dups h]
    exact ⟨rfl, rfl, rfl, rfl, rfl, rfl, rfl, rfl⟩

/-- C2 counterexample: with the sorted listing a, b, c where b is
unreadable, the scan crashes at b: nothing at all is classified — the
readable file c is never reached and even the duplicate and corrupt
lists stay empty, contradicting the claim that the scan continues with
the remaining files. -/
theorem C2_counterexample :
    (cleanupMain (fun c : List ℕ => c.length) (fun _ => true)
      [("a", some [1]), ("b", none), ("c", some [3])] false).crash = some "b" ∧
    (cleanupMain (fun c : List ℕ => c.length) (fun _ => true)
      [("a", some [1]), ("b", none), ("c", some [3])] false).duplicates = [] ∧
    (cleanupMain (fun c : List ℕ => c.length) (fun _ => true)
      [("a", some [1]), ("b", none), ("c", some [3])] false).corrupts = [] := by
  refine ⟨by decide, by decide, by decide⟩

/-- C2 amended: an I/O error while hashing a file is not isolated to
that file: compute_hash has no try/except around it, so the exception
propagates out of find_duplicates and aborts the whole scan at the first
unreadable file of the sorted listing — no file is classified, nothing
is deleted, and the snapshot is left untouched.  (Per-file isolation
holds only for the deletion loops.) -/
theorem C2_unreadable_aborts_scan {β δ : Type} [DecidableEq δ] (sha : List β → δ)
    (judge : List β → Bool) (fs : List (String × Option (List β))) (dryRun : Bool)
    (q : String)
    (h : (gather_all_files fs).find? (fun p => (hashFile sha fs p).isNone) = some q) :
    cleanupMain sha judge fs dryRun = ⟨some q, [], [], [], [], [], [], fs⟩ := by
  have herr : find_duplicates sha fs (gather_all_files fs) = .error q :=
    fdGo_error (hashFile sha fs) _ [] [] q h
  exact cleanupMain_crash sha judge fs dryRun q herr

/-- C2 witness: the amended statement applied to the concrete snapshot
with unreadable b. -/
theorem C2_unreadable_aborts_scan_witness :
    cleanupMain (fun c : List ℕ => c.length) (fun _ => true)
      [("a", some [1]), ("b", none), ("c", some [3])] false =
      ⟨some "b", [], [], [], [], [], [], [("a", some [1]), ("b", none), ("c", some [3])]⟩ :=
  C2_unreadable_aborts_scan (fun c : List ℕ => c.length) (fun _ => true)
    [("a", some [1]), ("b", none), ("c", some [3])] false "b" (by decide)

/-- C8: collision resolution is deterministic (it is a pure function of
the destination path and the existing-path set) and resolves to the stem
of the target with the suffix _n appended and the extension preserved,
where n starts at 1 and increments until the candidate path is free:
whenever some candidate in probing range is free, the result is the
candidate of the least free index n ≥ 1, every smaller index being
occupied. -/
theorem C8_collision_resolution (occupied : List String) (target : String)
    (h : ∃ k, 1 ≤ k ∧ k ≤ occupied.length + 2 ∧ collCand target k ∉ occupied) :
    ∃ n, 1 ≤ n ∧ resolve_collision occupied target = collCand target n ∧
      collCand target n ∉ occupied ∧
      ∀ m, 1 ≤ m → m < n → collCand target m ∈ occupied := by
  obtain ⟨k, hk1, hk2, hk3⟩ := h
  exact collisionLoop_spec occupied target (occupied.length + 1) 1 ⟨k, hk1, by omega, hk3⟩

/-- C8 witness: with img_001_1.jpg and img_001_2.jpg existing, a
collision on img_001.jpg resolves to img_001_3.jpg, and the result is
not an existing path. -/
theorem C8_collision_resolution_witness :
    resolve_collision ["img_001_1.jpg", "img_001_2.jpg"] "img_001.jpg" = "img_001_3.jpg" ∧
    resolve_collision ["img_001_1.jpg", "img_001_2.jpg"] "img_001.jpg" ∉
      ["img_001_1.jpg", "img_001_2.jpg"] := by
  obtain ⟨n, h1, h2, h3, h4⟩ := C8_collision_resolution ["img_001_1.jpg", "img_001_2.jpg"]
    "img_001.jpg" ⟨3, by omega, by decide, by decide⟩
  have hn4 : n < 4 := by
    by_contra hge
    have h34 := h4 3 (by omega) (by omega)
    exact absurd h34 (by decide)
  interval_cases n
  · exact absurd (by decide : collCand "img_001.jpg" 1 ∈ ["img_001_1.jpg", "img_001_2.jpg"]) h3
  · exact absurd (by decide : collCand "img_001.jpg" 2 ∈ ["img_001_1.jpg", "img_001_2.jpg"]) h3
  · rw [h2]
    exact ⟨by decide, by decide⟩

/-- C7: the duplicate pass covers every file of the listing regardless
of extension, while the corruption pass is exactly the files whose
lower-cased extension is in the recognised image-extension list and
which fail the decode check; the passes are independent, so on the
concrete snapshot below the file b.jpg appears both as a duplicate (of
a.jpg) and as a corrupt path, while the extension-less-of-images pair
d.txt is still reported as a duplicate of c.txt. -/
theorem C7_independent_passes :
    (∀ {β δ : Type} [DecidableEq δ] (sha : List β → δ) (judge : List β → Bool)
      (fs : List (String × Option (List β))) (dryRun : Bool) (p : String),
      (cleanupMain sha judge fs dryRun).crash = none →
      (p ∈ (cleanupMain sha judge fs dryRun).corrupts ↔
        (p ∈ gather_all_files fs ∧
          IMAGE_EXTENSIONS.contains (strLower (splitext p).2) = true ∧
          is_corrupt_image judge fs p = true))) ∧
    (("b.jpg", "a.jpg") ∈ (cleanupMain (fun c : List ℕ => c.length) (fun _ => true)
        [("a.jpg", some [1]), ("b.jpg", some [1]), ("c.txt", some [2, 2]),
          ("d.txt", some [2, 2])] true).duplicates ∧
      "b.jpg" ∈ (cleanupMain (fun c : List ℕ => c.length) (fun _ => true)
        [("a.jpg", some [1]), ("b.jpg", some [1]), ("c.txt", some [2, 2]),
          ("d.txt", some [2, 2])] true).corrupts ∧
      ("d.txt", "c.txt") ∈ (cleanupMain (fun c : List ℕ => c.length) (fun _ => true)
        [("a.jpg", some [1]), ("b.jpg", some [1]), ("c.txt", some [2, 2]),
          ("d.txt", some [2, 2])] true).duplicates ∧
      "d.txt" ∉ (cleanupMain (fun c : List ℕ => c.length) (fun _ => true)
        [("a.jpg", some [1]), ("b.jpg", some [1]), ("c.txt", some [2, 2]),
          ("d.txt", some [2, 2])] true).corrupts) := by
  constructor
  · intro β δ hinst sha judge fs dryRun p hcrash
    cases h : find_duplicates sha fs (gather_all_files fs) with
    | error q =>
      rw [cleanupMain_crash sha judge fs dryRun q h] at hcrash
      simp at hcrash
    | ok dups =>
      cases dryRun with
      | true =>
        rw [cleanupMain_ok_dry sha judge fs dups h]
        show p ∈ (gather_all_files fs).filter _ ↔ _
        rw [List.mem_filter]
        constructor
        · intro ⟨hmem, hb⟩
          rw [Bool.and_eq_true] at hb
          exact ⟨hmem, hb.1, hb.2⟩
        · intro ⟨hmem, hb1, hb2⟩
          exact ⟨hmem, by rw [Bool.and_eq_true]; exact ⟨hb1, hb2⟩⟩
      | false =>
        rw [cleanupMain_ok_live sha judge fs dups h]
        show p ∈ (gather_all_files fs).filter _ ↔ _
        rw [List.mem_filter]
        constructor
        · intro ⟨hmem, hb⟩
          rw [Bool.and_eq_true] at hb
          exact ⟨hmem, hb.1, hb.2⟩
        · intro ⟨hmem, hb1, hb2⟩
          exact ⟨hmem, by rw [Bool.and_eq_true]; exact ⟨hb1, hb2⟩⟩
  · exact ⟨by decide, by decide, by decide, by decide⟩

/-- C7 witness: the corrupt-membership characterisation applied to the
concrete snapshot: b.jpg is corrupt because its extension is recognised
and the decode check fails, and this is consistent with it also being a
duplicate. -/
theorem C7_independent_passes_witness :
    "b.jpg" ∈ (cleanupMain (fun c : List ℕ => c.length) (fun _ => true)
      [("a.jpg", some [1]), ("b.jpg", some [1]), ("c.txt", some [2, 2]),
        ("d.txt", some [2, 2])] true).corrupts := by
  have hiff := C7_independent_passes.1 (fun c : List ℕ => c.length) (fun _ => true)
    [("a.jpg", some [1]), ("b.jpg", some [1]), ("c.txt", some [2, 2]),
      ("d.txt", some [2, 2])] true "b.jpg" (by decide)
  exact hiff.mpr ⟨by decide, by decide, by decide⟩

theorem hashFile_of_content {β δ : Type} (sha : List β → δ)
    (fs : List (String × Option (List β))) (p : String) (c : List β)
    (h : lookupKey p fs = some (some c)) : hashFile sha fs p = some (sha c) := by
  unfold hashFile
  rw [h]
  show some (compute_hash sha c) = some (sha c)
  rw [compute_hash_content]

theorem hashFile_undef {β δ : Type} (sha : List β → δ)
    (fs : List (String × Option (List β))) (p : String)
    (h : lookupKey p fs = none) : hashFile sha fs p = none := by
  unfold hashFile
  rw [h]

theorem hashFile_unreadable {β δ : Type} (sha : List β → δ)
    (fs : List (String × Option (List β))) (p : String)
    (h : lookupKey p fs = some none) : hashFile sha fs p = none := by
  unfold hashFile
  rw [h]

/-- C6: in the duplicate pass over the lexicographically sorted listing,
the first occurrence of each fingerprint is canonical: a pair (d, c) is
reported exactly when c is the first file of the sorted listing with
fingerprint equal to that of d and d is a distinct (hence later) file;
the duplicate-removal step deletes only first components of reported
pairs, and therefore never a canonical file (one that is the first of
its own fingerprint group). -/
theorem C6_first_occurrence_canonical {β δ : Type} [DecidableEq δ] (sha : List β → δ)
    (judge : List β → Bool) (fs : List (String × Option (List β))) (dryRun : Bool)
    (f : String → δ)
    (hnodup : (gather_all_files fs).Nodup)
    (hread : ∀ p ∈ gather_all_files fs, hashFile sha fs p = some (f p)) :
    (cleanupMain sha judge fs dryRun).crash = none ∧
    (∀ d c, ((d, c) ∈ (cleanupMain sha judge fs dryRun).duplicates ↔
      (d ∈ gather_all_files fs ∧
        (gather_all_files fs).find? (fun q => decide (f q = f d)) = some c ∧ c ≠ d))) ∧
    (∀ x ∈ (cleanupMain sha judge fs dryRun).removedDups,
      ∃ c, (x, c) ∈ (cleanupMain sha judge fs dryRun).duplicates) ∧
    (∀ p, (gather_all_files fs).find? (fun q => decide (f q = f p)) = some p →
      p ∉ (cleanupMain sha judge fs dryRun).removedDups) := by
  have hok : find_duplicates sha fs (gather_all_files fs) =
      .ok (dupPairs f [] (gather_all_files fs)) :=
    fdGo_ok (hashFile sha fs) f (gather_all_files fs) [] [] [] hread (fun h => rfl)
  have hmemdp : ∀ d c, ((d, c) ∈ dupPairs f [] (gather_all_files fs) ↔
      (d ∈ gather_all_files fs ∧
        (gather_all_files fs).find? (fun q => decide (f q = f d)) = some c ∧ c ≠ d)) := by
    intro d c
    have h := mem_dupPairs f (gather_all_files fs) [] (by simpa using hnodup) d c
    simpa using h
  cases dryRun with
  | true =>
    rw [cleanupMain_ok_dry sha judge fs _ hok]
    refine ⟨rfl, hmemdp, ?_, ?_⟩
    · intro x hx
      simp at hx
    · intro p _ hmem
      simp at hmem
  | false =>
    rw [cleanupMain_ok_live sha judge fs _ hok]
    have hsub : ∀ x ∈ (removeAll fs ((dupPairs f [] (gather_all_files fs)).map Prod.fst)).1,
        ∃ c, (x, c) ∈ dupPairs f [] (gather_all_files fs) := by
      intro x hx
      have hmem := removeAll_removed_subset _ fs x hx
      obtain ⟨⟨x1, c⟩, hpair, hfst⟩ := List.mem_map.mp hmem
      exact ⟨c, by rw [← hfst]; exact hpair⟩
    refine ⟨rfl, hmemdp, hsub, ?_⟩
    intro p hfirst hpmem
    obtain ⟨c, hc⟩ := hsub p hpmem
    obtain ⟨_, hfind, hne⟩ := (hmemdp p c).mp hc
    rw [hfirst] at hfind
    exact hne (Option.some_inj.mp hfind).symm

/-- C6 witness: on the concrete snapshot, b.jpg is reported as a
duplicate of the canonical a.jpg, and a.jpg is not deleted by the
duplicate-removal step of the live run. -/
theorem C6_first_occurrence_canonical_witness :
    ("b.jpg", "a.jpg") ∈ (cleanupMain (fun c : List ℕ => c.length) (fun _ => true)
      [("a.jpg", some [1]), ("b.jpg", some [1]), ("c.txt", some [2, 2]),
        ("d.txt", some [2, 2])] false).duplicates ∧
    "a.jpg" ∉ (cleanupMain (fun c : List ℕ => c.length) (fun _ => true)
      [("a.jpg", some [1]), ("b.jpg", some [1]), ("c.txt", some [2, 2]),
        ("d.txt", some [2, 2])] false).removedDups := by
  obtain ⟨hcrash, hmem, hsub, hcanon⟩ := C6_first_occurrence_canonical
    (fun c : List ℕ => c.length) (fun _ => true)
    [("a.jpg", some [1]), ("b.jpg", some [1]), ("c.txt", some [2, 2]), ("d.txt", some [2, 2])]
    false
    (fun p => (hashFile (fun c : List ℕ => c.length)
      [("a.jpg", some [1]), ("b.jpg", some [1]), ("c.txt", some [2, 2]),
        ("d.txt", some [2, 2])] p).getD 0)
    (by decide) (by decide)
  refine ⟨(hmem "b.jpg" "a.jpg").mpr ⟨by decide, by decide, by decide⟩, ?_⟩
  exact hcanon "a.jpg" (by decide)

/-- C10: a zero-byte file hashes to the digest of the empty byte
string (the chunked read contributes nothing), so under an injective-
on-contents digest all zero-byte files share one fingerprint: if z is
the first zero-byte file in the sorted listing, every other zero-byte
file is reported as a duplicate with canonical file z. -/
theorem C10_zero_byte_duplicates {β δ : Type} [DecidableEq β] [DecidableEq δ] (sha : List β → δ)
    (judge : List β → Bool) (fs : List (String × Option (List β))) (dryRun : Bool)
    (f : String → δ) (z : String)
    (hnodup : (gather_all_files fs).Nodup)
    (hread : ∀ p ∈ gather_all_files fs, hashFile sha fs p = some (f p))
    (hcol : ∀ p ∈ gather_all_files fs, ∀ c, lookupKey p fs = some (some c) →
      sha c = sha ([] : List β) → c = [])
    (hz : (gather_all_files fs).find?
      (fun p => decide (lookupKey p fs = some (some ([] : List β)))) = some z) :
    compute_hash sha ([] : List β) = sha ([] : List β) ∧
    ∀ p ∈ gather_all_files fs, lookupKey p fs = some (some ([] : List β)) → p ≠ z →
      (p, z) ∈ (cleanupMain sha judge fs dryRun).duplicates := by
  refine ⟨compute_hash_content sha [], ?_⟩
  intro p hp hzerop hpz
  have hfp : f p = sha ([] : List β) := by
    have h1 := hread p hp
    rw [hashFile_of_content sha fs p [] hzerop] at h1
    exact (Option.some_inj.mp h1).symm
  have hcong : (gather_all_files fs).find? (fun q => decide (f q = f p)) =
      (gather_all_files fs).find?
        (fun q => decide (lookupKey q fs = some (some ([] : List β)))) := by
    apply find?_congr
    intro x hx
    rw [hfp]
    by_cases hzx : lookupKey x fs = some (some ([] : List β))
    · have h1 := hread x hx
      rw [hashFile_of_content sha fs x [] hzx] at h1
      have hfx : f x = sha ([] : List β) := (Option.some_inj.mp h1).symm
      simp [hfx, hzx]
    · have hfx : f x ≠ sha ([] : List β) := by
        intro hEq
        have h1 := hread x hx
        cases hlk : lookupKey x fs with
        | none =>
          rw [hashFile_undef sha fs x hlk] at h1
          exact Option.noConfusion h1
        | some oc =>
          cases oc with
          | none =>
            rw [hashFile_unreadable sha fs x hlk] at h1
            exact Option.noConfusion h1
          | some c =>
            rw [hashFile_of_content sha fs x c hlk] at h1
            have hshac : sha c = sha ([] : List β) := by
              rw [Option.some_inj.mp h1, hEq]
            have hc0 : c = [] := hcol x hx c hlk hshac
            rw [hc0] at hlk
            exact hzx hlk
      simp [hfx, hzx]
  have hok : find_duplicates sha fs (gather_all_files fs) =
      .ok (dupPairs f [] (gather_all_files fs)) :=
    fdGo_ok (hashFile sha fs) f (gather_all_files fs) [] [] [] hread (fun h => rfl)
  have hfind : (gather_all_files fs).find? (fun q => decide (f q = f p)) = some z := by
    rw [hcong]
    exact hz
  have hmemdp := mem_dupPairs f (gather_all_files fs) [] (by simpa using hnodup) p z
  have hmem : (p, z) ∈ dupPairs f [] (gather_all_files fs) := by
    apply hmemdp.mpr
    refine ⟨?_, ?_, Ne.symm hpz⟩
    · simpa using hp
    · simpa using hfind
  cases dryRun with
  | true =>
    rw [cleanupMain_ok_dry sha judge fs _ hok]
    exact hmem
  | false =>
    rw [cleanupMain_ok_live sha judge fs _ hok]
    exact hmem

/-- C10 witness: on a snapshot with two zero-byte files e.txt and
f.txt (and a non-empty file), the zero-byte file f.txt is reported as
a duplicate of the first zero-byte file e.txt, and the empty content
hashes to the digest of the empty byte string. -/
theorem C10_zero_byte_duplicates_witness :
    compute_hash (fun c : List ℕ => c.length) ([] : List ℕ) =
      (fun c : List ℕ => c.length) ([] : List ℕ) ∧
    ("f.txt", "e.txt") ∈ (cleanupMain (fun c : List ℕ => c.length) (fun _ => true)
      [("a.jpg", some [1]), ("e.txt", some []), ("f.txt", some [])] true).duplicates := by
  obtain ⟨hhash, hdup⟩ := C10_zero_byte_duplicates
    (fun c : List ℕ => c.length) (fun _ => true)
    [("a.jpg", some [1]), ("e.txt", some []), ("f.txt", some [])] true
    (fun p => (hashFile (fun c : List ℕ => c.length)
      [("a.jpg", some [1]), ("e.txt", some []), ("f.txt", some [])] p).getD 7)
    "e.txt"
    (by decide) (by decide)
    (fun p _ c _ h => List.length_eq_zero.mp h) (by decide)
  exact ⟨hhash, hdup "f.txt" (by decide) (by decide) (by decide)⟩

theorem toRat_neg_exp (m : ℤ) (k : ℕ) :
    toRat ⟨m, Int.negSucc k⟩ = (m : ℚ) / ((pow2 (k + 1) : ℕ) : ℚ) := by
  show (m : ℚ) * ((pow2 (k + 1) : ℕ) : ℚ)⁻¹ = _
  rw [div_eq_mul_inv]

theorem buildSubsets_slices (x : List String) (nt nv : ℤ)
    (h1 : 0 ≤ nt) (h2 : 0 ≤ nv) (h3 : nt + nv ≤ (x.length : ℤ)) :
    ∃ t v s : List String,
      buildSubsets x (pyRange 0 nt) (pyRange nt (nt + nv))
        (pyRange (nt + nv) (x.length : ℤ)) = SplitOutcome.ok t v s ∧
      t ++ v ++ s = x := by
  have hta : (0 : ℤ) + ((nt.toNat : ℕ) : ℤ) = nt := by omega
  have ht := mapOpt_pyRange_slice nt.toNat 0 x le_rfl (by omega)
  rw [hta] at ht
  simp only [Int.toNat_zero, List.drop_zero] at ht
  have htb : nt + ((nv.toNat : ℕ) : ℤ) = nt + nv := by omega
  have hv2 := mapOpt_pyRange_slice nv.toNat nt x h1 (by omega)
  rw [htb] at hv2
  have htc : (nt + nv) + ((((x.length : ℤ) - (nt + nv)).toNat : ℕ) : ℤ) = (x.length : ℤ) := by
    omega
  have hs3 := mapOpt_pyRange_slice ((x.length : ℤ) - (nt + nv)).toNat (nt + nv) x
    (by omega) (by omega)
  rw [htc] at hs3
  refine ⟨_, _, _, buildSubsets_ok x _ _ _ _ _ _ ht hv2 hs3, ?_⟩
  have hdd : (x.drop nt.toNat).drop nv.toNat = x.drop (nt + nv).toNat := by
    rw [List.drop_drop]
    congr 1
    omega
  have hK : ((x.length : ℤ) - (nt + nv)).toNat = (x.drop (nt + nv).toNat).length := by
    rw [List.length_drop]
    omega
  have hstake : (x.drop (nt + nv).toNat).take (((x.length : ℤ) - (nt + nv)).toNat) =
      x.drop (nt + nv).toNat := by
    rw [hK, List.take_length]
  rw [List.append_assoc, hstake, ← hdd, List.take_append_drop, List.take_append_drop]

/-- C1 counterexample: ratio validation only constrains the sum, so the
triple (0.5, -0.5, 1.0) is accepted; on the two-file listing the run
completes with train = ["a"], val = [], test = ["a", "b"]: the file "a"
is placed in two subsets and the concatenation of the subsets is not a
permutation of the input, so the subsets are not a disjoint cover. -/
theorem C1_overlap_counterexample :
    validate_ratios (dyOfRatPos 1 2) (dyNeg (dyOfRatPos 1 2)) (dyOfNat 1) = true ∧
    (mainSplit 0 42 ["a", "b"] (dyOfRatPos 1 2) (dyNeg (dyOfRatPos 1 2))
      (dyOfNat 1)).outcome = SplitOutcome.ok ["a"] [] ["a", "b"] ∧
    ¬ ((["a"] ++ ([] : List String) ++ ["a", "b"]).Perm ["a", "b"]) := by
  refine ⟨by decide, by rfl, fun h => by simpa using h.length_eq⟩

/-- C1 (amended): when each of the first two ratios is additionally
non-negative and their exact rational sum is at most 1, a run on a
non-empty listing of fewer than 2^53 files completes, and the
concatenation train ++ val ++ test is a permutation of the input
listing: every input file lands in exactly one subset position, none
is dropped and none is duplicated across subsets. -/
theorem C1_disjoint_cover_amended (prior seed : ℕ) (listing : List String) (tr vl te : Dy)
    (hv : validate_ratios tr vl te = true)
    (hne : listing ≠ [])
    (hlen : listing.length < pow2 53)
    (htr : 0 ≤ tr.m) (hvl : 0 ≤ vl.m)
    (hsum : toRat tr + toRat vl ≤ 1) :
    ∃ t v s : List String,
      (mainSplit prior seed listing tr vl te).outcome = SplitOutcome.ok t v s ∧
      (t ++ v ++ s).Perm listing := by
  have hflen : (gather_files listing).length = listing.length :=
    (gather_files_perm listing).length_eq
  have hfne : (gather_files listing).isEmpty = false := by
    cases hgf : gather_files listing with
    | nil =>
      exfalso
      have hp := gather_files_perm listing
      rw [hgf] at hp
      exact hne hp.symm.eq_nil
    | cons a l => rfl
  have hsl : (pyShuffle (gather_files listing) (pySeed seed)).1.length =
      (gather_files listing).length := pyShuffle_length _ _
  obtain ⟨h1, h2, h3⟩ := split_sizes_bound (gather_files listing).length tr vl
    (by rw [hflen]; exact hlen) htr hvl hsum
  obtain ⟨t, v, s, hbs, hcat⟩ := buildSubsets_slices
    (pyShuffle (gather_files listing) (pySeed seed)).1
    (pyInt (pyMulNat (gather_files listing).length tr))
    (pyInt (pyMulNat (gather_files listing).length vl))
    h1 h2 (by rw [hsl]; exact h3)
  rw [hsl] at hbs
  have hsi1 : (split_indices (gather_files listing).length tr vl).1 =
      pyRange 0 (pyInt (pyMulNat (gather_files listing).length tr)) := rfl
  have hsi2 : (split_indices (gather_files listing).length tr vl).2.1 =
      pyRange (pyInt (pyMulNat (gather_files listing).length tr))
        (pyInt (pyMulNat (gather_files listing).length tr) +
          pyInt (pyMulNat (gather_files listing).length vl)) := rfl
  have hsi3 : (split_indices (gather_files listing).length tr vl).2.2 =
      pyRange (pyInt (pyMulNat (gather_files listing).length tr) +
          pyInt (pyMulNat (gather_files listing).length vl))
        (((gather_files listing).length : ℕ) : ℤ) := rfl
  refine ⟨t, v, s, ?_, ?_⟩
  · rw [mainSplit_run prior seed listing tr vl te hv hfne]
    show buildSubsets (pyShuffle (gather_files listing) (pySeed seed)).1
      (split_indices (gather_files listing).length tr vl).1
      (split_indices (gather_files listing).length tr vl).2.1
      (split_indices (gather_files listing).length tr vl).2.2 = SplitOutcome.ok t v s
    rw [hsi1, hsi2, hsi3]
    exact hbs
  · rw [hcat]
    exact (pyShuffle_perm _ _).trans (gather_files_perm listing)

/-- C1 amended witness: ratios (0.7, 0.2, 0.1) on the three-file
listing; the run completes and the subsets concatenate to a
permutation of the listing. -/
theorem C1_disjoint_cover_amended_witness :
    ∃ t v s : List String,
      (mainSplit 0 42 ["a", "b", "c"] (dyOfRatPos 7 10) (dyOfRatPos 2 10)
        (dyOfRatPos 1 10)).outcome = SplitOutcome.ok t v s ∧
      (t ++ v ++ s).Perm ["a", "b", "c"] :=
  C1_disjoint_cover_amended 0 42 ["a", "b", "c"] (dyOfRatPos 7 10) (dyOfRatPos 2 10)
    (dyOfRatPos 1 10) (by decide) (by decide) (by decide) (by decide) (by decide)
    (by
      have e1 : dyOfRatPos 7 10 = ⟨6305039478318694, Int.negSucc 52⟩ := by decide
      have e2 : dyOfRatPos 2 10 = ⟨7205759403792794, Int.negSucc 54⟩ := by decide
      rw [e1, e2, toRat_neg_exp, toRat_neg_exp, pow2_eq, pow2_eq]
      push_cast
      norm_num)
